import Mathlib

/-!
Verification development for the go-search repository: shallow embedding of
the text scanner, URL normalizer, HTML extraction pass, frontier queue,
indexer transaction, ranker phase 1 and BM25 search membership, together
with theorems settling the specification claims about them.

Conventions: Go strings are Lean `String` / `List Char`; machine integers are
`Nat`/`Int` with explicit range checks where Go checks them; fallible Go
functions return `Option` or `Except`; SQL tables are association lists and
each SQL statement used by a claim is embedded as a Lean function on those
lists.  Unicode character classes and Unicode lowercasing from the Go
`unicode` package are modelled on their ASCII fragment (`Char.isAlpha`,
`Char.isDigit`, and the `+32` uppercase-to-lowercase shift).
-/

namespace GoSearch

/-! ## Text scanner: internal/extract/scan.go -/

/-- Embedding of `isAlphaNumericRune`: `unicode.IsLetter(r) || unicode.IsNumber(r)`
(ASCII fragment). -/
def isAlphaNumericRune (r : Char) : Bool :=
  r.isAlpha || r.isDigit

/-- Embedding of Go `unicode.ToLower` on the ASCII fragment, the per-rune
action of `bytes.ToLower` / `strings.ToLower`. -/
def toLowerChar (c : Char) : Char :=
  if 65 ≤ c.toNat ∧ c.toNat ≤ 90 then Char.ofNat (c.toNat + 32) else c

/-- Lowercasing of a rune sequence: the action of `bytes.ToLower` on a token. -/
def lowerRun (cs : List Char) : List Char := cs.map toLowerChar

/-- Lowercasing of a string: the action of `strings.ToLower`. -/
def lowerString (s : String) : String := String.mk (lowerRun s.data)

/-- Embedding of the `bufio.SplitFunc` `ScanAlphaNumericWord`: skip runes that
are not alphanumeric, then take the longest alphanumeric run.  Returns the
number of runes consumed and the lowercased token, if any; when the run is
terminated by a separator rune that separator is consumed as well, exactly as
the Go code returns `end + size`.  The Go branch `start < len(data)` is the
branch in which the skipped remainder `rest` is non-empty, so the embedding
cases on `rest` directly. -/
def scanAlphaNumericWord (data : List Char) : Nat × Option (List Char) :=
  match data.dropWhile (fun r => !(isAlphaNumericRune r)) with
  | [] => (data.length, none)
  | r :: rs =>
    match (r :: rs).drop ((r :: rs).takeWhile isAlphaNumericRune).length with
    | [] =>
      (data.length - (r :: rs).length + ((r :: rs).takeWhile isAlphaNumericRune).length,
       some (lowerRun ((r :: rs).takeWhile isAlphaNumericRune)))
    | _ :: _ =>
      (data.length - (r :: rs).length + ((r :: rs).takeWhile isAlphaNumericRune).length + 1,
       some (lowerRun ((r :: rs).takeWhile isAlphaNumericRune)))

theorem length_dropWhile_le (p : Char → Bool) (l : List Char) :
    (l.dropWhile p).length ≤ l.length :=
  (List.dropWhile_sublist _).length_le

theorem head_dropWhile_false {p : Char → Bool} {l : List Char} {r : Char}
    {rs : List Char} (h : l.dropWhile p = r :: rs) : p r = false := by
  induction l with
  | nil => simp at h
  | cons a as ih =>
    rw [List.dropWhile_cons] at h
    by_cases hp : p a
    · simp [hp] at h
      exact ih h
    · simp [hp] at h
      simp [← h.1, hp]

theorem drop_takeWhile_length (l : List Char) (p : Char → Bool) :
    l.drop (l.takeWhile p).length = l.dropWhile p := by
  have h := List.takeWhile_append_dropWhile p l
  calc l.drop (l.takeWhile p).length
      = (l.takeWhile p ++ l.dropWhile p).drop (l.takeWhile p).length := by rw [h]
    _ = l.dropWhile p := List.drop_left _ _

theorem scanAlphaNumericWord_of_nil {data : List Char}
    (hrest : data.dropWhile (fun x => !(isAlphaNumericRune x)) = []) :
    scanAlphaNumericWord data = (data.length, none) := by
  unfold scanAlphaNumericWord
  rw [hrest]

theorem scanAlphaNumericWord_of_end {data : List Char} {r : Char} {rs : List Char}
    (hrest : data.dropWhile (fun x => !(isAlphaNumericRune x)) = r :: rs)
    (hdw : (r :: rs).dropWhile isAlphaNumericRune = []) :
    scanAlphaNumericWord data
      = (data.length - (r :: rs).length
          + ((r :: rs).takeWhile isAlphaNumericRune).length,
         some (lowerRun ((r :: rs).takeWhile isAlphaNumericRune))) := by
  have hsm : (r :: rs).drop ((r :: rs).takeWhile isAlphaNumericRune).length = [] := by
    rw [drop_takeWhile_length, hdw]
  unfold scanAlphaNumericWord
  rw [hrest]
  show (match (r :: rs).drop ((r :: rs).takeWhile isAlphaNumericRune).length with
    | [] =>
      (data.length - (r :: rs).length + ((r :: rs).takeWhile isAlphaNumericRune).length,
       some (lowerRun ((r :: rs).takeWhile isAlphaNumericRune)))
    | _ :: _ =>
      (data.length - (r :: rs).length + ((r :: rs).takeWhile isAlphaNumericRune).length + 1,
       some (lowerRun ((r :: rs).takeWhile isAlphaNumericRune)))) = _
  rw [hsm]

theorem scanAlphaNumericWord_of_sep {data : List Char} {r sep : Char}
    {rs more : List Char}
    (hrest : data.dropWhile (fun x => !(isAlphaNumericRune x)) = r :: rs)
    (hdw : (r :: rs).dropWhile isAlphaNumericRune = sep :: more) :
    scanAlphaNumericWord data
      = (data.length - (r :: rs).length
          + ((r :: rs).takeWhile isAlphaNumericRune).length + 1,
         some (lowerRun ((r :: rs).takeWhile isAlphaNumericRune))) := by
  have hsm : (r :: rs).drop ((r :: rs).takeWhile isAlphaNumericRune).length
      = sep :: more := by
    rw [drop_takeWhile_length, hdw]
  unfold scanAlphaNumericWord
  rw [hrest]
  show (match (r :: rs).drop ((r :: rs).takeWhile isAlphaNumericRune).length with
    | [] =>
      (data.length - (r :: rs).length + ((r :: rs).takeWhile isAlphaNumericRune).length,
       some (lowerRun ((r :: rs).takeWhile isAlphaNumericRune)))
    | _ :: _ =>
      (data.length - (r :: rs).length + ((r :: rs).takeWhile isAlphaNumericRune).length + 1,
       some (lowerRun ((r :: rs).takeWhile isAlphaNumericRune)))) = _
  rw [hsm]

theorem scanAlphaNumericWord_some_pos {data : List Char} {adv : Nat}
    {w : List Char} (h : scanAlphaNumericWord data = (adv, some w)) :
    0 < adv ∧ data ≠ [] := by
  cases hrest : data.dropWhile (fun r => !(isAlphaNumericRune r)) with
  | nil =>
    rw [scanAlphaNumericWord_of_nil hrest] at h
    simp at h
  | cons r rs =>
    have hr : isAlphaNumericRune r = true := by
      have := head_dropWhile_false hrest
      simpa using this
    have hrun : ((r :: rs).takeWhile isAlphaNumericRune).length > 0 := by
      rw [List.takeWhile_cons, if_pos hr]
      simp
    have hdata : data ≠ [] := by
      intro hd
      rw [hd] at hrest
      simp at hrest
    refine ⟨?_, hdata⟩
    cases hdw : (r :: rs).dropWhile isAlphaNumericRune with
    | nil =>
      rw [scanAlphaNumericWord_of_end hrest hdw] at h
      have h1 := congrArg Prod.fst h
      simp only at h1
      omega
    | cons sep more =>
      rw [scanAlphaNumericWord_of_sep hrest hdw] at h
      have h1 := congrArg Prod.fst h
      simp only at h1
      omega

/-- Fuel-indexed driver for the `bufio.Scanner` loop: apply the split function
to the remaining input, collect the token it yields, recurse on what is left.
The fuel only bounds the number of iterations; `scanAlphaNumericWord` consumes
at least one rune per token, so `data.length + 1` fuel always suffices
(`scanTokensAux_irrel`). -/
def scanTokensAux : Nat → List Char → List (List Char)
  | 0, _ => []
  | fuel + 1, data =>
    match scanAlphaNumericWord data with
    | (adv, some w) => w :: scanTokensAux fuel (data.drop adv)
    | (_, none) => []

/-- Embedding of the `bufio.Scanner` loop in `ScanWords`: repeatedly apply the
split function to the remaining input, collecting the tokens it yields, until
it yields none.  A `none` result consumes the whole remaining input, so the
loop stops. -/
def scanTokens (data : List Char) : List (List Char) :=
  scanTokensAux (data.length + 1) data

theorem scanTokensAux_irrel : ∀ (f1 f2 : Nat) (d : List Char),
    d.length < f1 → d.length < f2 → scanTokensAux f1 d = scanTokensAux f2 d := by
  intro f1
  induction f1 with
  | zero => intro f2 d h1; omega
  | succ f1 ih =>
    intro f2 d h1 h2
    cases f2 with
    | zero => omega
    | succ f2 =>
      simp only [scanTokensAux]
      cases hsaw : scanAlphaNumericWord d with
      | mk adv tok =>
        cases tok with
        | none => rfl
        | some w =>
          have hpos := scanAlphaNumericWord_some_pos hsaw
          have hd : d.length ≠ 0 := by
            intro hz
            exact hpos.2 (List.eq_nil_of_length_eq_zero hz)
          have hdrop : (d.drop adv).length < d.length := by
            simp only [List.length_drop]
            omega
          simp only
          rw [ih f2 (d.drop adv) (by omega) (by omega)]

/-- Specification-side tokenizer: the maximal runs of alphanumeric runes of
the input, in input order. -/
def maximalAlnumRuns (data : List Char) : List (List Char) :=
  match data with
  | [] => []
  | c :: cs =>
    if isAlphaNumericRune c then
      ((c :: cs).takeWhile isAlphaNumericRune)
        :: maximalAlnumRuns ((c :: cs).dropWhile isAlphaNumericRune)
    else
      maximalAlnumRuns cs
termination_by data.length
decreasing_by
· rename_i c cs h
  have hle := length_dropWhile_le isAlphaNumericRune cs
  simp [List.dropWhile_cons, h]
  omega
· simp

theorem scanTokens_of_some {data : List Char} {adv : Nat} {w : List Char}
    (h : scanAlphaNumericWord data = (adv, some w)) :
    scanTokens data = w :: scanTokens (data.drop adv) := by
  have hpos := scanAlphaNumericWord_some_pos h
  have hd : data.length ≠ 0 := by
    intro hz
    exact hpos.2 (List.eq_nil_of_length_eq_zero hz)
  unfold scanTokens
  simp only [scanTokensAux, h]
  rw [scanTokensAux_irrel data.length ((data.drop adv).length + 1) (data.drop adv)
    (by simp only [List.length_drop]; omega) (by omega)]
  rfl

theorem scanTokens_of_none {data : List Char} {adv : Nat}
    (h : scanAlphaNumericWord data = (adv, none)) :
    scanTokens data = [] := by
  unfold scanTokens
  simp only [scanTokensAux, h]

theorem takeWhile_length_eq_sub {p : Char → Bool} (data : List Char) :
    (data.takeWhile p).length = data.length - (data.dropWhile p).length := by
  have h := List.takeWhile_append_dropWhile p data
  have h2 := congrArg List.length h
  simp only [List.length_append] at h2
  omega

theorem drop_skip_add {p : Char → Bool} (data : List Char) (k : Nat) :
    data.drop ((data.takeWhile p).length + k) = (data.dropWhile p).drop k := by
  rw [← drop_takeWhile_length data p, List.drop_drop]

theorem maximalAlnumRuns_skip (data : List Char) :
    maximalAlnumRuns data
      = maximalAlnumRuns (data.dropWhile (fun r => !(isAlphaNumericRune r))) := by
  induction data with
  | nil => rfl
  | cons c cs ih =>
    by_cases hc : isAlphaNumericRune c
    · have hstop : (c :: cs).dropWhile (fun r => !(isAlphaNumericRune r)) = c :: cs := by
        rw [List.dropWhile_cons]
        simp [hc]
      rw [hstop]
    · have hstep : (c :: cs).dropWhile (fun r => !(isAlphaNumericRune r))
          = cs.dropWhile (fun r => !(isAlphaNumericRune r)) := by
        rw [List.dropWhile_cons]
        simp [hc]
      rw [hstep, ← ih, maximalAlnumRuns]
      simp [hc]

theorem maximalAlnumRuns_nil : maximalAlnumRuns [] = [] := by
  rw [maximalAlnumRuns]

theorem maximalAlnumRuns_cons_pos {c : Char} {cs : List Char}
    (hc : isAlphaNumericRune c = true) :
    maximalAlnumRuns (c :: cs)
      = ((c :: cs).takeWhile isAlphaNumericRune)
          :: maximalAlnumRuns ((c :: cs).dropWhile isAlphaNumericRune) := by
  rw [maximalAlnumRuns]
  simp [hc]

theorem maximalAlnumRuns_cons_neg {c : Char} {cs : List Char}
    (hc : isAlphaNumericRune c = false) :
    maximalAlnumRuns (c :: cs) = maximalAlnumRuns cs := by
  rw [maximalAlnumRuns]
  simp [hc]

/-- The scanner loop built from the `bufio.SplitFunc` yields exactly the
maximal alphanumeric runs of the input, each lowercased, in input order. -/
theorem scanTokens_eq_runs (data : List Char) :
    scanTokens data = (maximalAlnumRuns data).map lowerRun := by
  suffices h : ∀ n (data : List Char), data.length = n →
      scanTokens data = (maximalAlnumRuns data).map lowerRun from
    h data.length data rfl
  intro n
  induction n using Nat.strong_induction_on with
  | _ n ih =>
  intro data hn
  cases hrest : data.dropWhile (fun r => !(isAlphaNumericRune r)) with
  | nil =>
    rw [scanTokens_of_none (scanAlphaNumericWord_of_nil hrest),
      maximalAlnumRuns_skip, hrest, maximalAlnumRuns_nil]
    rfl
  | cons r rs =>
    have hr : isAlphaNumericRune r = true := by
      have := head_dropWhile_false hrest
      simpa using this
    have hstart : data.length - (r :: rs).length
        = (data.takeWhile (fun x => !(isAlphaNumericRune x))).length := by
      rw [@takeWhile_length_eq_sub (fun x => !(isAlphaNumericRune x)) data, hrest]
    have hdropk : ∀ k, data.drop (data.length - (r :: rs).length + k)
        = (r :: rs).drop k := by
      intro k
      rw [hstart, drop_skip_add, hrest]
    rw [maximalAlnumRuns_skip, hrest, maximalAlnumRuns_cons_pos hr]
    cases hdw : (r :: rs).dropWhile isAlphaNumericRune with
    | nil =>
      have hsaw := scanAlphaNumericWord_of_end hrest hdw
      rw [scanTokens_of_some hsaw, hdropk, drop_takeWhile_length, hdw]
      have h0 : scanTokens [] = [] :=
        scanTokens_of_none (scanAlphaNumericWord_of_nil rfl)
      rw [h0, maximalAlnumRuns_nil]
      rfl
    | cons sep more =>
      have hsep : isAlphaNumericRune sep = false := by
        have := head_dropWhile_false hdw
        simpa using this
      have hsaw := scanAlphaNumericWord_of_sep hrest hdw
      have hsm : (r :: rs).drop ((r :: rs).takeWhile isAlphaNumericRune).length
          = sep :: more := by
        rw [drop_takeWhile_length, hdw]
      have hdrop1 : data.drop (data.length - (r :: rs).length
          + ((r :: rs).takeWhile isAlphaNumericRune).length + 1) = more := by
        rw [Nat.add_assoc, hdropk]
        rw [← List.drop_drop, hsm]
        rfl
      have hmorelt : more.length < n := by
        have h1 : (sep :: more).length ≤ (r :: rs).length :=
          hdw ▸ length_dropWhile_le _ (r :: rs)
        have h2 : (r :: rs).length ≤ data.length :=
          hrest ▸ length_dropWhile_le _ data
        have h3 : (r :: rs).length = rs.length + 1 := by simp
        simp only [List.length_cons] at h1
        omega
      rw [scanTokens_of_some hsaw, hdrop1, maximalAlnumRuns_cons_neg hsep]
      rw [List.map_cons]
      rw [ih more.length hmorelt more rfl]

/-- Embedding of `isIntegerWord` via `strconv.Atoi`: base-10 parse into the
platform `int` (64-bit).  `digitsVal?` is the all-digits value of a rune list,
or `none` when empty or containing a non-digit. -/
def digitsVal? (ds : List Char) : Option Nat :=
  match ds with
  | [] => none
  | _ :: _ =>
    if ds.all Char.isDigit then
      some (ds.foldl (fun acc c => acc * 10 + (c.toNat - 48)) 0)
    else none

/-- Embedding of `strconv.Atoi`: optional sign, decimal digits, 64-bit signed
range check; returns `none` exactly when Go returns a non-nil error
(syntax error or out of range). -/
def atoi (s : String) : Option Int :=
  match s.data with
  | [] => none
  | c :: cs =>
    if c = '-' then
      match digitsVal? cs with
      | some n => if n ≤ 2 ^ 63 then some (-(n : Int)) else none
      | none => none
    else if c = '+' then
      match digitsVal? cs with
      | some n => if n ≤ 2 ^ 63 - 1 then some (n : Int) else none
      | none => none
    else
      match digitsVal? (c :: cs) with
      | some n => if n ≤ 2 ^ 63 - 1 then some (n : Int) else none
      | none => none

/-- Embedding of `isIntegerWord`: true iff `strconv.Atoi` succeeds. -/
def isIntegerWord (w : String) : Bool := (atoi w).isSome

/-- Embedding of Go `unicode.IsSpace` on its ASCII fragment, used by
`strings.TrimSpace`. -/
def isSpaceChar (c : Char) : Bool :=
  c = ' ' || c = '\t' || c = '\n' || c = (Char.ofNat 11) || c = (Char.ofNat 12) || c = '\r'

/-- Embedding of `strings.TrimSpace`: drop whitespace runes from both ends. -/
def trimSpace (l : List Char) : List Char :=
  ((l.dropWhile isSpaceChar).reverse.dropWhile isSpaceChar).reverse

/-- Embedding of `strings.Split(data, "\n")` (single-rune separator): the
fields between newline runes; the empty input yields one empty field, as in
Go. -/
def splitLines : List Char → List (List Char)
  | [] => [[]]
  | c :: cs =>
    if c = '\n' then
      [] :: splitLines cs
    else
      match splitLines cs with
      | [] => [[c]]
      | l :: ls => (c :: l) :: ls

/-- Embedding of `initStopWords`: split the embedded `stop_words.txt` data on
newlines, trim each line, keep the non-empty ones.  The embedded file is not
among the sources, so its contents remain a parameter `stopWordsData`. -/
def initStopWords (stopWordsData : String) : List String :=
  (((splitLines stopWordsData.data).map (fun l => String.mk (trimSpace l))).filter
    (fun w => w ≠ ""))

/-- Embedding of `ScanWords`: tokenize with the split function, then drop any
token that is in the stop-word set or parses as an integer, and append the
(again) lowercased survivors. -/
def scanWords (stopWordsData : String) (s : String) : List String :=
  let stopWords := initStopWords stopWordsData
  ((scanTokens s.data).map (fun cs => String.mk cs)).filterMap (fun word =>
    if !(stopWords.contains word) && !(isIntegerWord word) then
      some (lowerString word)
    else none)

/-- Embedding of `ScanWordsFromString`, scanning an in-memory reader. -/
def scanWordsFromString (stopWordsData : String) (s : String) : List String :=
  scanWords stopWordsData s

/-! ## Character-class facts used to reason about lowercasing and digits -/

theorem toNat_of_isUpper {c : Char} (h : c.isUpper = true) :
    65 ≤ c.toNat ∧ c.toNat ≤ 90 := by
  simp [Char.isUpper] at h
  obtain ⟨h1, h2⟩ := h
  have g1 : (65 : UInt32).toNat ≤ c.val.toNat := h1
  have g2 : c.val.toNat ≤ (90 : UInt32).toNat := h2
  simp at g1 g2
  exact ⟨g1, g2⟩

theorem toNat_of_isLower {c : Char} (h : c.isLower = true) :
    97 ≤ c.toNat ∧ c.toNat ≤ 122 := by
  simp [Char.isLower] at h
  obtain ⟨h1, h2⟩ := h
  have g1 : (97 : UInt32).toNat ≤ c.val.toNat := h1
  have g2 : c.val.toNat ≤ (122 : UInt32).toNat := h2
  simp at g1 g2
  exact ⟨g1, g2⟩

theorem toNat_of_isDigit {c : Char} (h : c.isDigit = true) :
    48 ≤ c.toNat ∧ c.toNat ≤ 57 := by
  simp [Char.isDigit] at h
  obtain ⟨h1, h2⟩ := h
  have g1 : (48 : UInt32).toNat ≤ c.val.toNat := h1
  have g2 : c.val.toNat ≤ (57 : UInt32).toNat := h2
  simp at g1 g2
  exact ⟨g1, g2⟩

theorem toNat_ofNat_valid {n : Nat} (h : n < 55296) : (Char.ofNat n).toNat = n := by
  unfold Char.ofNat
  split
  · rfl
  · rename_i hv
    exact absurd (Or.inl h) hv

theorem toLowerChar_not_upper_range (c : Char) :
    ¬(65 ≤ (toLowerChar c).toNat ∧ (toLowerChar c).toNat ≤ 90) := by
  unfold toLowerChar
  by_cases h : 65 ≤ c.toNat ∧ c.toNat ≤ 90
  · rw [if_pos h]
    rw [toNat_ofNat_valid (by omega)]
    omega
  · rw [if_neg h]
    exact h

theorem toLowerChar_idem (c : Char) :
    toLowerChar (toLowerChar c) = toLowerChar c := by
  conv_lhs => rw [toLowerChar]
  rw [if_neg (toLowerChar_not_upper_range c)]

theorem toLowerChar_of_isDigit {c : Char} (h : c.isDigit = true) :
    toLowerChar c = c := by
  have := toNat_of_isDigit h
  unfold toLowerChar
  rw [if_neg (by omega)]

theorem lowerRun_idem (cs : List Char) : lowerRun (lowerRun cs) = lowerRun cs := by
  induction cs with
  | nil => rfl
  | cons c cs ih =>
    simp only [lowerRun, List.map_cons] at *
    rw [toLowerChar_idem]
    rw [ih]

theorem lowerString_of_lowerRun (run : List Char) :
    lowerString (String.mk (lowerRun run)) = String.mk (lowerRun run) := by
  unfold lowerString
  show String.mk (lowerRun (lowerRun run)) = _
  rw [lowerRun_idem]

theorem lowerRun_of_digits {cs : List Char} (h : cs.all Char.isDigit = true) :
    lowerRun cs = cs := by
  induction cs with
  | nil => rfl
  | cons c cs ih =>
    simp only [List.all_cons, Bool.and_eq_true] at h
    simp only [lowerRun, List.map_cons] at *
    rw [toLowerChar_of_isDigit h.1, ih h.2]

/-! ## Settling the scanner claims -/

theorem scanWords_filterMap_filter (stopWords : List String) (runs : List (List Char)) :
    ((runs.map lowerRun).map (fun cs => String.mk cs)).filterMap (fun word =>
        if !(stopWords.contains word) && !(isIntegerWord word) then
          some (lowerString word)
        else none)
      = ((runs.map lowerRun).map (fun cs => String.mk cs)).filter
          (fun w => !(stopWords.contains w) && !(isIntegerWord w)) := by
  induction runs with
  | nil => rfl
  | cons run rs ih =>
    simp only [List.map_cons, List.filterMap_cons, List.filter_cons]
    by_cases hc : (!(stopWords.contains (String.mk (lowerRun run)))
        && !(isIntegerWord (String.mk (lowerRun run)))) = true
    · simp only [hc, if_true, lowerString_of_lowerRun]
      rw [ih]
    · simp only [Bool.not_eq_true] at hc
      simp only [hc, if_false]
      exact ih

/-- General shape of `ScanWords` output: the maximal alphanumeric runs of the
input, lowercased, in input order, with stop words and integer-parsing tokens
removed (the filter runs on the lowercased token). -/
theorem scanWords_spec (stopWordsData s : String) :
    scanWords stopWordsData s
      = (((maximalAlnumRuns s.data).map lowerRun).map (fun cs => String.mk cs)).filter
          (fun w => !((initStopWords stopWordsData).contains w)
            && !(isIntegerWord w)) := by
  unfold scanWords
  rw [scanTokens_eq_runs]
  exact scanWords_filterMap_filter _ _


/-! ## All-digit tokens: `strconv.Atoi` range behaviour (claims C8 / C10) -/

/-- Base-10 value of an all-digit token, the fold computed inside the
embedding of `strconv.Atoi`. -/
def digitsValue (w : String) : Nat :=
  w.data.foldl (fun acc c => acc * 10 + (c.toNat - 48)) 0

theorem digitsVal?_cons (c : Char) (cs : List Char) :
    digitsVal? (c :: cs)
      = if (c :: cs).all Char.isDigit then
          some ((c :: cs).foldl (fun acc x => acc * 10 + (x.toNat - 48)) 0)
        else none := rfl

theorem digit_not_minus {c : Char} (h : c.isDigit = true) : ¬(c = '-') := by
  rintro rfl
  exact absurd h (by decide)

theorem digit_not_plus {c : Char} (h : c.isDigit = true) : ¬(c = '+') := by
  rintro rfl
  exact absurd h (by decide)

theorem isIntegerWord_of_digits {w : String} (hne : w.data ≠ [])
    (hdig : w.data.all Char.isDigit = true) :
    isIntegerWord w = decide (digitsValue w ≤ 2 ^ 63 - 1) := by
  cases hd : w.data with
  | nil => exact absurd hd hne
  | cons c cs =>
    have hw : w = ⟨c :: cs⟩ := by rw [← hd]
    subst hw
    have hall : (c :: cs).all Char.isDigit = true := hdig
    have hcdig : c.isDigit = true := by
      simp only [List.all_cons, Bool.and_eq_true] at hall
      exact hall.1
    unfold isIntegerWord atoi
    simp only
    rw [if_neg (digit_not_minus hcdig), if_neg (digit_not_plus hcdig)]
    rw [digitsVal?_cons, if_pos hall]
    unfold digitsValue
    simp only
    by_cases hle : (c :: cs).foldl (fun acc x => acc * 10 + (x.toNat - 48)) 0 ≤ 2 ^ 63 - 1
    · rw [if_pos hle, decide_eq_true hle]
      rfl
    · rw [if_neg hle, decide_eq_false hle]
      rfl

theorem alnum_of_digit {c : Char} (h : c.isDigit = true) :
    isAlphaNumericRune c = true := by
  simp [isAlphaNumericRune, h]

theorem takeWhile_of_all {p : Char → Bool} {l : List Char}
    (h : l.all p = true) : l.takeWhile p = l := by
  induction l with
  | nil => rfl
  | cons c cs ih =>
    simp only [List.all_cons, Bool.and_eq_true] at h
    rw [List.takeWhile_cons, if_pos (by simp [h.1]), ih h.2]

theorem dropWhile_of_all {p : Char → Bool} {l : List Char}
    (h : l.all p = true) : l.dropWhile p = [] := by
  induction l with
  | nil => rfl
  | cons c cs ih =>
    simp only [List.all_cons, Bool.and_eq_true] at h
    rw [List.dropWhile_cons]
    simp only [h.1, if_true]
    exact ih h.2

theorem scanTokens_of_digits {w : String} (hne : w.data ≠ [])
    (hdig : w.data.all Char.isDigit = true) :
    scanTokens w.data = [w.data] := by
  cases hd : w.data with
  | nil => exact absurd hd hne
  | cons c cs =>
    have hall : (c :: cs).all Char.isDigit = true := hd ▸ hdig
    have hallnum : (c :: cs).all isAlphaNumericRune = true := by
      simp only [List.all_eq_true] at hall ⊢
      exact fun x hx => alnum_of_digit (hall x hx)
    have hcd : c.isDigit = true := by
      simp only [List.all_cons, Bool.and_eq_true] at hall
      exact hall.1
    have hrest : (c :: cs).dropWhile (fun r => !(isAlphaNumericRune r)) = c :: cs := by
      rw [List.dropWhile_cons]
      simp [alnum_of_digit hcd]
    have hdw : (c :: cs).dropWhile isAlphaNumericRune = [] := dropWhile_of_all hallnum
    have htake : (c :: cs).takeWhile isAlphaNumericRune = c :: cs :=
      takeWhile_of_all hallnum
    have hsaw := scanAlphaNumericWord_of_end hrest hdw
    rw [scanTokens_of_some hsaw]
    have hlower : lowerRun (c :: cs) = c :: cs := lowerRun_of_digits hall
    have hdropnil : (c :: cs).drop ((c :: cs).length - (c :: cs).length
        + ((c :: cs).takeWhile isAlphaNumericRune).length) = [] := by
      rw [Nat.sub_self, Nat.zero_add, drop_takeWhile_length, hdw]
    rw [hdropnil, htake, hlower]
    have h0 : scanTokens [] = [] :=
      scanTokens_of_none (scanAlphaNumericWord_of_nil rfl)
    rw [h0]

theorem scanWords_tokens (stopWordsData s : String) :
    scanWords stopWordsData s
      = ((scanTokens s.data).map (fun cs => String.mk cs)).filterMap (fun word =>
          if !((initStopWords stopWordsData).contains word)
              && !(isIntegerWord word) then
            some (lowerString word)
          else none) := rfl

/-- Claim C8: the scanner emits exactly the maximal runs of letters and
digits, lowercased, in input order, minus tokens that (after lowercasing) are
in the stop-word set or parse as base-10 integers; scanning
"Hello, HELLO hello" yields three times "hello" when "hello" is not a stop
word, and "42" is dropped.  The stop-word file contents stay the parameter
`stopWordsData` since the embedded `stop_words.txt` is not among the
sources. -/
theorem c8_scanner_runs_lowercased_filtered (stopWordsData s : String)
    (hhello : (initStopWords stopWordsData).contains "hello" = false) :
    scanWords stopWordsData s
      = (((maximalAlnumRuns s.data).map lowerRun).map (fun cs => String.mk cs)).filter
          (fun w => !((initStopWords stopWordsData).contains w)
            && !(isIntegerWord w))
    ∧ scanWords stopWordsData "Hello, HELLO hello" = ["hello", "hello", "hello"]
    ∧ scanWords stopWordsData "42" = [] := by
  refine ⟨scanWords_spec stopWordsData s, ?_, ?_⟩
  · have htok : (scanTokens "Hello, HELLO hello".data).map (fun cs => String.mk cs)
        = ["hello", "hello", "hello"] := by decide
    have hint : isIntegerWord "hello" = false := by decide
    have hlow : lowerString "hello" = "hello" := by decide
    rw [scanWords_tokens, htok, List.filterMap_cons, List.filterMap_cons,
      List.filterMap_cons, List.filterMap_nil, hhello, hint]
    show [lowerString "hello", lowerString "hello", lowerString "hello"] = _
    rw [hlow]
  · have htok : (scanTokens "42".data).map (fun cs => String.mk cs) = ["42"] := by decide
    have hint : isIntegerWord "42" = true := by decide
    rw [scanWords_tokens, htok, List.filterMap_cons, List.filterMap_nil, hint,
      Bool.not_true, Bool.and_false]
    rfl

theorem c8_scanner_runs_lowercased_filtered_witness :
    (initStopWords "the\nof\nand").contains "hello" = false
      ∧ scanWords "the\nof\nand" "Hello, HELLO hello" = ["hello", "hello", "hello"]
      ∧ scanWords "the\nof\nand" "42" = [] := by
  have h := c8_scanner_runs_lowercased_filtered "the\nof\nand" "sample text" (by decide)
  exact ⟨by decide, h.2.1, h.2.2⟩

/-- Claim C10: a token consisting solely of decimal digits is dropped by the
scanner exactly when `strconv.Atoi` accepts it, that is when its value fits
the 64-bit platform `int`; a digit string whose value exceeds that range (for
example twenty nines) is emitted as a term. -/
theorem c10_integer_filter_is_machine_width (stopWordsData w : String)
    (hne : w.data ≠ [])
    (hdig : w.data.all Char.isDigit = true)
    (hstop : (initStopWords stopWordsData).contains w = false) :
    isIntegerWord w = decide (digitsValue w ≤ 2 ^ 63 - 1)
    ∧ scanWords stopWordsData w
        = (if 2 ^ 63 - 1 < digitsValue w then [w] else []) := by
  refine ⟨isIntegerWord_of_digits hne hdig, ?_⟩
  have htok := scanTokens_of_digits hne hdig
  have htokmap : (scanTokens w.data).map (fun cs => String.mk cs) = [w] := by
    rw [htok]
    rfl
  have hlow : lowerString w = w := by
    unfold lowerString
    rw [lowerRun_of_digits hdig]
  rw [scanWords_tokens, htokmap, List.filterMap_cons, List.filterMap_nil]
  rw [hstop, isIntegerWord_of_digits hne hdig]
  by_cases hbig : 2 ^ 63 - 1 < digitsValue w
  · have hdec : decide (digitsValue w ≤ 2 ^ 63 - 1) = false := decide_eq_false (by omega)
    rw [hdec, if_pos hbig]
    show [lowerString w] = [w]
    rw [hlow]
  · have hdec : decide (digitsValue w ≤ 2 ^ 63 - 1) = true := decide_eq_true (by omega)
    rw [hdec, if_neg hbig, Bool.not_true, Bool.and_false]
    rfl

theorem c10_integer_filter_is_machine_width_witness :
    ("99999999999999999999".data ≠ []
      ∧ "99999999999999999999".data.all Char.isDigit = true
      ∧ (initStopWords "the\nof").contains "99999999999999999999" = false)
    ∧ scanWords "the\nof" "99999999999999999999" = ["99999999999999999999"]
    ∧ scanWords "the\nof" "42" = [] := by
  have hbig := c10_integer_filter_is_machine_width "the\nof" "99999999999999999999"
    (by decide) (by decide) (by decide)
  have hsmall := c10_integer_filter_is_machine_width "the\nof" "42"
    (by decide) (by decide) (by decide)
  refine ⟨⟨by decide, by decide, by decide⟩, ?_, ?_⟩
  · rw [hbig.2]
    decide
  · rw [hsmall.2]
    decide


/-! ## HTML extraction: internal/extract/html.go and process.go -/

/-- Node kinds of `golang.org/x/net/html.Node` that the extraction pass
distinguishes. -/
inductive NodeType where
  | document
  | element
  | text
  | comment
  | doctype
deriving DecidableEq

/-- Shallow embedding of `html.Node`: kind, `Data` (tag name for elements,
text for text nodes), attributes as key-value pairs, and children in document
order.  Parent pointers are supplied by the traversal. -/
inductive HtmlNode where
  | mk (ntype : NodeType) (data : String) (attrs : List (String × String))
      (children : List HtmlNode)

/-- Embedding of `isATag`: an element node whose atom is `a`. -/
def isATagData (ntype : NodeType) (data : String) : Bool :=
  ntype = NodeType.element && data = "a"

/-- Embedding of `isVisibleText`, with the parent passed explicitly (the Go
code reads `n.Parent`): a text node whose parent element is not one of
script/style/head/noscript and whose trimmed data is non-empty. -/
def isVisibleTextAt (parent : Option (NodeType × String))
    (ntype : NodeType) (data : String) : Bool :=
  if ntype ≠ NodeType.text then false
  else if (match parent with
    | some (NodeType.element, ptag) =>
      let tag := lowerString ptag
      tag = "script" || tag = "style" || tag = "head" || tag = "noscript"
    | _ => false) then false
  else if String.mk (trimSpace data.data) = "" then false
  else true

/-- Embedding of the `href` collection in the `isATag` branch: every attribute
value whose key is `href`, in attribute order. -/
def hrefsOf (attrs : List (String × String)) : List String :=
  attrs.filterMap (fun a => if a.1 = "href" then some a.2 else none)

/-- State threaded through the DFS of `ProcessHtmlDocument`: collected links,
term-frequency map, the bytes written to the SHA-256 hasher so far (as the
accumulated string), and the token count. -/
structure PState where
  links : List String
  termFreqs : String → Nat
  hashAcc : String
  len : Nat

/-- One visible-text token step of the Go loop body: `hash.Write(word)`,
`termFreqs[word] += 1`, `len += 1`. -/
def addWord (st : PState) (word : String) : PState :=
  { st with
    hashAcc := st.hashAcc ++ word,
    termFreqs := fun t => if t = word then st.termFreqs t + 1 else st.termFreqs t,
    len := st.len + 1 }

/-- The callback body of `ProcessHtmlDocument`'s DFS: collect `href` values of
anchor elements, and scan visible text nodes, feeding each filtered word to
the hasher, the frequency map and the length counter. -/
def visitNode (stopData : String) (parent : Option (NodeType × String))
    (ntype : NodeType) (data : String) (attrs : List (String × String))
    (st : PState) : PState :=
  let st1 :=
    if isATagData ntype data then
      { st with links := st.links ++ hrefsOf attrs }
    else st
  if isVisibleTextAt parent ntype data then
    (scanWordsFromString stopData data).foldl addWord st1
  else st1

mutual

/-- Embedding of `DfsNodes` as used by `ProcessHtmlDocument`: visit the node,
then the children left to right, threading the state. -/
def dfsProcess (stopData : String) (parent : Option (NodeType × String)) :
    HtmlNode → PState → PState
  | HtmlNode.mk t d attrs children, st =>
    dfsProcessList stopData (some (t, d)) children (visitNode stopData parent t d attrs st)

def dfsProcessList (stopData : String) (parent : Option (NodeType × String)) :
    List HtmlNode → PState → PState
  | [], st => st
  | c :: cs, st => dfsProcessList stopData parent cs (dfsProcess stopData parent c st)

end

/-- Result record of `ProcessHtmlDocument` (the hash-producing version). -/
structure Extracted where
  links : List String
  termFreqs : String → Nat
  hash : String
  len : Nat

/-- Embedding of the lowercase alphabet of `hex.EncodeToString`. -/
def hexDigitChar (n : Nat) : Char :=
  if n < 10 then Char.ofNat (48 + n) else Char.ofNat (87 + n)

/-- Embedding of `hex.EncodeToString` over digest bytes: two lowercase hex
digits per byte, high nibble first. -/
def hexEncode (bs : List Nat) : String :=
  String.mk (bs.foldr (fun b acc => hexDigitChar (b / 16 % 16) :: hexDigitChar (b % 16) :: acc) [])

/-- Embedding of `ProcessHtmlDocument`: DFS from the root with empty state,
then package links, frequencies, the hex-encoded digest of the written byte
stream, and the count.  The SHA-256 compression itself is the external
`crypto` primitive and stays a parameter `sha` from written bytes to digest
bytes. -/
def processHtmlDocument (sha : String → List Nat) (stopData : String)
    (root : HtmlNode) : Extracted :=
  let st := dfsProcess stopData none root ⟨[], fun _ => 0, "", 0⟩
  { links := st.links
    termFreqs := st.termFreqs
    hash := hexEncode (sha st.hashAcc)
    len := st.len }

/-- Specification-side concatenation of the token stream, in order, with no
separators. -/
def concatTokens : List String → String
  | [] => ""
  | w :: ws => w ++ concatTokens ws

mutual

/-- Specification-side filtered token stream of a document: the scanner
output of every visible text node, in depth-first document order. -/
def visibleTokens (stopData : String) (parent : Option (NodeType × String)) :
    HtmlNode → List String
  | HtmlNode.mk t d _ children =>
    (if isVisibleTextAt parent t d then scanWordsFromString stopData d else [])
      ++ visibleTokensList stopData (some (t, d)) children

def visibleTokensList (stopData : String) (parent : Option (NodeType × String)) :
    List HtmlNode → List String
  | [] => []
  | c :: cs =>
    visibleTokens stopData parent c ++ visibleTokensList stopData parent cs

end

theorem concatTokens_append (xs ys : List String) :
    concatTokens (xs ++ ys) = concatTokens xs ++ concatTokens ys := by
  induction xs with
  | nil => simp [concatTokens]
  | cons x xs ih =>
    show x ++ concatTokens (xs ++ ys) = (x ++ concatTokens xs) ++ concatTokens ys
    rw [ih, String.append_assoc]

theorem foldl_addWord_acc (words : List String) (st : PState) :
    ((words.foldl addWord st).hashAcc = st.hashAcc ++ concatTokens words)
      ∧ ((words.foldl addWord st).len = st.len + words.length) := by
  induction words generalizing st with
  | nil => simp [concatTokens]
  | cons w ws ih =>
    simp only [List.foldl_cons, List.length_cons]
    have h := ih (addWord st w)
    refine ⟨?_, ?_⟩
    · rw [h.1]
      show (st.hashAcc ++ w) ++ concatTokens ws = st.hashAcc ++ (w ++ concatTokens ws)
      rw [String.append_assoc]
    · rw [h.2]
      show st.len + 1 + ws.length = st.len + (ws.length + 1)
      omega

theorem visitNode_acc (stopData : String) (parent : Option (NodeType × String))
    (t : NodeType) (d : String) (attrs : List (String × String)) (st : PState) :
    ((visitNode stopData parent t d attrs st).hashAcc
        = st.hashAcc ++ concatTokens
            (if isVisibleTextAt parent t d then scanWordsFromString stopData d else []))
      ∧ ((visitNode stopData parent t d attrs st).len
        = st.len + (if isVisibleTextAt parent t d then
            scanWordsFromString stopData d else []).length) := by
  unfold visitNode
  by_cases hv : isVisibleTextAt parent t d = true
  · rw [hv]
    by_cases ha : isATagData t d = true
    · rw [ha]
      exact foldl_addWord_acc _ _
    · have ha2 : isATagData t d = false := by
        revert ha
        cases isATagData t d <;> simp
      rw [ha2]
      exact foldl_addWord_acc _ _
  · have hv2 : isVisibleTextAt parent t d = false := by
      revert hv
      cases isVisibleTextAt parent t d <;> simp
    rw [hv2]
    by_cases ha : isATagData t d = true
    · rw [ha]
      simp [concatTokens]
    · have ha2 : isATagData t d = false := by
        revert ha
        cases isATagData t d <;> simp
      rw [ha2]
      simp [concatTokens]

mutual

theorem dfsProcess_acc (stopData : String) (parent : Option (NodeType × String))
    (n : HtmlNode) (st : PState) :
    ((dfsProcess stopData parent n st).hashAcc
        = st.hashAcc ++ concatTokens (visibleTokens stopData parent n))
      ∧ ((dfsProcess stopData parent n st).len
        = st.len + (visibleTokens stopData parent n).length) := by
  cases n with
  | mk t d attrs children =>
    have hvisit := visitNode_acc stopData parent t d attrs st
    have hrec := dfsProcessList_acc stopData (some (t, d)) children
      (visitNode stopData parent t d attrs st)
    unfold dfsProcess visibleTokens
    refine ⟨?_, ?_⟩
    · rw [hrec.1, hvisit.1, concatTokens_append, String.append_assoc]
    · rw [hrec.2, hvisit.2, List.length_append]
      omega

theorem dfsProcessList_acc (stopData : String) (parent : Option (NodeType × String))
    (l : List HtmlNode) (st : PState) :
    ((dfsProcessList stopData parent l st).hashAcc
        = st.hashAcc ++ concatTokens (visibleTokensList stopData parent l))
      ∧ ((dfsProcessList stopData parent l st).len
        = st.len + (visibleTokensList stopData parent l).length) := by
  cases l with
  | nil =>
    unfold dfsProcessList visibleTokensList
    simp [concatTokens]
  | cons c cs =>
    have hc := dfsProcess_acc stopData parent c st
    have hcs := dfsProcessList_acc stopData parent cs (dfsProcess stopData parent c st)
    unfold dfsProcessList visibleTokensList
    refine ⟨?_, ?_⟩
    · rw [hcs.1, hc.1, concatTokens_append, String.append_assoc]
    · rw [hcs.2, hc.2, List.length_append]
      omega

end

/-- Claim C9: for every document tree, the hash produced by
`ProcessHtmlDocument` is the lowercase hex encoding of SHA-256 (abstracted as
the digest parameter `sha`) applied to the concatenation, in document order
and with no separators, of the filtered token stream of the visible text
nodes — stop words and integer tokens already removed by the scanner — and
the produced `len` counts exactly those filtered tokens with repeats; the hex
alphabet is lowercase, e.g. bytes `[0, 255, 16]` encode to "00ff10". -/
theorem c9_hash_and_len_over_filtered_stream (sha : String → List Nat)
    (stopData : String) (root : HtmlNode) :
    ((processHtmlDocument sha stopData root).hash
        = hexEncode (sha (concatTokens (visibleTokens stopData none root)))
      ∧ (processHtmlDocument sha stopData root).len
        = (visibleTokens stopData none root).length)
    ∧ hexEncode [0, 255, 16] = "00ff10" := by
  have h := dfsProcess_acc stopData none root ⟨[], fun _ => 0, "", 0⟩
  refine ⟨⟨?_, ?_⟩, by decide⟩
  · unfold processHtmlDocument
    simp only
    rw [h.1]
    rfl
  · unfold processHtmlDocument
    simp only
    rw [h.2]
    show 0 + (visibleTokens stopData none root).length = _
    omega


/-! ## URL utilities: internal/store/util.go over net/url -/

/-- Components of a parsed URL, the fields of `net/url.URL` that
`NormalizeURL` touches. -/
structure GoURL where
  scheme : String
  host : String
  path : String
  rawQuery : String
  fragment : String
deriving DecidableEq

/-- Split a rune list at the first occurrence of `sep`: the part before it
and, when found, the part after it (`strings.Cut`). -/
def splitFirst (sep : Char) : List Char → List Char × Option (List Char)
  | [] => ([], none)
  | c :: cs =>
    if c = sep then ([], some cs)
    else
      ((splitFirst sep cs).1.cons c, (splitFirst sep cs).2)

/-- Split a rune list into the segments between occurrences of `sep`
(`splitLines` generalized; the empty list yields one empty segment). -/
def splitSepCore (sep : Char) : List Char → List (List Char)
  | [] => [[]]
  | c :: cs =>
    if c = sep then
      [] :: splitSepCore sep cs
    else
      match splitSepCore sep cs with
      | [] => [[c]]
      | l :: ls => (c :: l) :: ls

/-- Scheme runes accepted by `net/url` after the leading letter. -/
def isSchemeChar (c : Char) : Bool :=
  c.isAlpha || c.isDigit || c = '+' || c = '-' || c = '.'

/-- Host runes of the modelled grammar (percent-encoding-free). -/
def isHostChar (c : Char) : Bool :=
  c.isAlpha || c.isDigit || c = '.' || c = '-' || c = ':'

/-- Path runes of the modelled grammar, on which `EscapedPath` is the
identity. -/
def isPathChar (c : Char) : Bool :=
  c.isAlpha || c.isDigit || c = '/' || c = '.' || c = '-' || c = '_' || c = '~'

/-- Query key / value runes of the modelled grammar, on which `QueryEscape`
is the identity. -/
def isQueryChar (c : Char) : Bool :=
  c.isAlpha || c.isDigit || c = '.' || c = '-' || c = '_' || c = '~'

/-- Runes allowed in a raw query string: query runes plus the separators. -/
def isQueryStringChar (c : Char) : Bool :=
  isQueryChar c || c = '=' || c = '&'

def headIsAlpha : List Char → Bool
  | [] => false
  | c :: _ => c.isAlpha

/-- Embedding of `url.Parse` on the modelled grammar
`scheme://host[path][?query][#fragment]`: the fragment is everything after
the first '#', the scheme everything before the first ':' (validated as in
`getScheme`), the authority must follow as `//`, the host runs to the first
'/' or '?', and the query is everything after the first '?' of the
remainder.  URLs outside this percent-encoding-free grammar are not modelled
and yield `none`. -/
def parseURL (rawURL : String) : Option GoURL :=
  let hashSplit := splitFirst '#' rawURL.data
  let fragment := match hashSplit.2 with
    | some f => f
    | none => []
  match splitFirst ':' hashSplit.1 with
  | (schemeCs, some rest1) =>
    match rest1 with
    | '/' :: '/' :: rest2 =>
      let hostCs := rest2.takeWhile (fun c => !(c = '/' || c = '?'))
      let rest3 := rest2.dropWhile (fun c => !(c = '/' || c = '?'))
      let querySplit := splitFirst '?' rest3
      let queryCs := match querySplit.2 with
        | some q => q
        | none => []
      if headIsAlpha schemeCs && schemeCs.all isSchemeChar
          && hostCs.all isHostChar
          && querySplit.1.all isPathChar
          && queryCs.all isQueryStringChar then
        some ⟨String.mk schemeCs, String.mk hostCs, String.mk querySplit.1,
          String.mk queryCs, String.mk fragment⟩
      else none
    | _ => none
  | (_, none) => none

/-- Embedding of `url.URL.String` on the modelled grammar. -/
def urlString (u : GoURL) : String :=
  u.scheme ++ "://" ++ u.host ++ u.path
    ++ (if u.rawQuery = "" then "" else "?" ++ u.rawQuery)
    ++ (if u.fragment = "" then "" else "#" ++ u.fragment)

/-- Embedding of `url.ParseQuery` as called by `u.Query()`: split on '&',
skip empty segments and segments containing ';', split each remaining
segment at its first '=' into key and value. -/
def parseQuery (q : String) : List (String × String) :=
  (splitSepCore '&' q.data).filterMap (fun seg =>
    if seg = [] then none
    else if seg.contains ';' then none
    else
      let kv := splitFirst '=' seg
      some (String.mk kv.1, String.mk (match kv.2 with
        | some v => v
        | none => [])))

/-- Bytewise-lexicographic string comparison, the order used by
`sort.Strings`. -/
def lexLeChars : List Char → List Char → Bool
  | [], _ => true
  | _ :: _, [] => false
  | a :: as, b :: bs =>
    if a.toNat < b.toNat then true
    else if b.toNat < a.toNat then false
    else lexLeChars as bs

def strLeb (a b : String) : Bool := lexLeChars a.data b.data

/-- The `sort.Strings` order as a decidable relation. -/
def qLe (a b : String) : Prop := strLeb a b = true

instance : DecidableRel qLe := fun a b => instDecidableEqBool _ _

/-- Embedding of `sort.Strings` (ascending). -/
def sortStrings (l : List String) : List String := List.insertionSort qLe l

/-- First-appearance-ordered distinct keys of a pair list; the iteration
basis for `url.Values` (the map order itself is irrelevant because `Encode`
sorts the keys). -/
def distinctKeys (pairs : List (String × String)) : List String :=
  pairs.foldl (fun acc p => if acc.contains p.1 then acc else acc ++ [p.1]) []

/-- The values stored under key `k`, in pair order — the `url.Values` list
for `k`. -/
def valuesOf (pairs : List (String × String)) (k : String) : List String :=
  (pairs.filter (fun p => p.1 = k)).map (fun p => p.2)

def joinAmp : List String → String
  | [] => ""
  | [x] => x
  | x :: xs => x ++ "&" ++ joinAmp xs

def concatMapStr (f : String → List String) : List String → List String
  | [] => []
  | k :: ks => f k ++ concatMapStr f ks

/-- The segment list written by `url.Values.Encode` after the per-key value
sort of `NormalizeURL`: keys in sorted order, each key's values in sorted
order, one `k=v` segment per value. -/
def encodedSegments (pairs : List (String × String)) (ks : List String) : List String :=
  concatMapStr (fun k => (sortStrings (valuesOf pairs k)).map (fun v => k ++ "=" ++ v)) ks

/-- Embedding of the query step of `NormalizeURL`: `u.Query()`, sort each
key's value list, `Encode()` (which itself sorts the keys). -/
def sortedEncodedQuery (rawQuery : String) : String :=
  joinAmp (encodedSegments (parseQuery rawQuery)
    (sortStrings (distinctKeys (parseQuery rawQuery))))

/-- The same query re-encoding but with the keys kept in their original
(first-appearance) order — the behaviour the specification text describes.
Modelled from the spec: "re-encodes query with keys in original order but
each key's values sorted". -/
def specKeyOrderQuery (rawQuery : String) : String :=
  joinAmp (encodedSegments (parseQuery rawQuery) (distinctKeys (parseQuery rawQuery)))

def endsWithSlash (p : String) : Bool :=
  match p.data.getLast? with
  | some c => c = '/'
  | none => false

/-- Embedding of `strings.TrimSuffix(path, "/")`: remove one trailing
slash. -/
def trimSuffixSlash (p : String) : String :=
  match p.data.reverse with
  | '/' :: rest => String.mk rest.reverse
  | _ => p

/-- Embedding of the body of `NormalizeURL` after parsing: lowercase scheme
and host, drop the fragment, re-encode the query with each key's values
sorted (keys end up sorted by `Encode`), and strip one trailing slash unless
the path is exactly "/". -/
def normalizeStruct (u : GoURL) : GoURL :=
  { scheme := lowerString u.scheme
    host := lowerString u.host
    path := if u.path ≠ "/" && endsWithSlash u.path then trimSuffixSlash u.path else u.path
    rawQuery := sortedEncodedQuery u.rawQuery
    fragment := "" }

/-- Embedding of `NormalizeURL`: parse, transform, print. -/
def NormalizeURL (rawURL : String) : Option String :=
  match parseURL rawURL with
  | none => none
  | some u => some (urlString (normalizeStruct u))

/-- The normalization the specification sentence describes, for comparison:
identical except that the re-encoded query keeps the keys in their original
order.  Modelled from the spec. -/
def normalizeSpecKeyOrder (rawURL : String) : Option String :=
  match parseURL rawURL with
  | none => none
  | some u =>
    some (urlString
      { scheme := lowerString u.scheme
        host := lowerString u.host
        path := if u.path ≠ "/" && endsWithSlash u.path then trimSuffixSlash u.path
          else u.path
        rawQuery := specKeyOrderQuery u.rawQuery
        fragment := "" })


/-! ## Splitting and ordering lemmas for the URL model -/

theorem splitFirst_cons_pos {sep a : Char} {as : List Char} (ha : a = sep) :
    splitFirst sep (a :: as) = ([], some as) := by
  unfold splitFirst
  rw [if_pos ha]

theorem splitFirst_cons_neg {sep a : Char} {as : List Char} (ha : ¬(a = sep)) :
    splitFirst sep (a :: as)
      = (a :: (splitFirst sep as).1, (splitFirst sep as).2) := by
  conv_lhs => unfold splitFirst
  rw [if_neg ha]

theorem splitFirst_of_no_sep {sep : Char} {l : List Char}
    (h : ∀ c ∈ l, c ≠ sep) : splitFirst sep l = (l, none) := by
  induction l with
  | nil => rfl
  | cons c cs ih =>
    have hc : ¬(c = sep) := h c (List.mem_cons_self c cs)
    rw [splitFirst_cons_neg hc, ih (fun x hx => h x (List.mem_cons_of_mem c hx))]

theorem splitFirst_append {sep : Char} {pre post : List Char}
    (h : ∀ c ∈ pre, c ≠ sep) :
    splitFirst sep (pre ++ sep :: post) = (pre, some post) := by
  induction pre with
  | nil =>
    show splitFirst sep (sep :: post) = ([], some post)
    exact splitFirst_cons_pos rfl
  | cons c cs ih =>
    have hc : ¬(c = sep) := h c (List.mem_cons_self c cs)
    show splitFirst sep (c :: (cs ++ sep :: post)) = _
    rw [splitFirst_cons_neg hc, ih (fun x hx => h x (List.mem_cons_of_mem c hx))]

theorem splitFirst_fst_no_sep (sep : Char) (l : List Char) :
    ∀ c ∈ (splitFirst sep l).1, c ≠ sep := by
  induction l with
  | nil => intro c hc; simp [splitFirst] at hc
  | cons a as ih =>
    intro c hc
    by_cases ha : a = sep
    · rw [splitFirst_cons_pos ha] at hc
      simp at hc
    · rw [splitFirst_cons_neg ha] at hc
      simp only [List.mem_cons] at hc
      cases hc with
      | inl he => rw [he]; exact ha
      | inr hm => exact ih c hm

theorem splitFirst_fst_subset (sep : Char) (l : List Char) :
    ∀ c ∈ (splitFirst sep l).1, c ∈ l := by
  induction l with
  | nil => intro c hc; simp [splitFirst] at hc
  | cons a as ih =>
    intro c hc
    by_cases ha : a = sep
    · rw [splitFirst_cons_pos ha] at hc
      simp at hc
    · rw [splitFirst_cons_neg ha] at hc
      simp only [List.mem_cons] at hc
      cases hc with
      | inl he => exact he ▸ List.mem_cons_self a as
      | inr hm => exact List.mem_cons_of_mem a (ih c hm)

theorem splitFirst_snd_subset (sep : Char) (l : List Char) {v : List Char}
    (hv : (splitFirst sep l).2 = some v) : ∀ c ∈ v, c ∈ l := by
  induction l with
  | nil => simp [splitFirst] at hv
  | cons a as ih =>
    by_cases ha : a = sep
    · rw [splitFirst_cons_pos ha] at hv
      injection hv with hv
      subst hv
      exact fun c hc => List.mem_cons_of_mem a hc
    · rw [splitFirst_cons_neg ha] at hv
      exact fun c hc => List.mem_cons_of_mem a (ih hv c hc)

theorem splitSepCore_ne_nil (sep : Char) (l : List Char) :
    splitSepCore sep l ≠ [] := by
  cases l with
  | nil => simp [splitSepCore]
  | cons c cs =>
    unfold splitSepCore
    by_cases hc : c = sep
    · rw [if_pos hc]
      simp
    · rw [if_neg hc]
      cases splitSepCore sep cs <;> simp

theorem splitSepCore_cons_pos {sep a : Char} {as : List Char} (ha : a = sep) :
    splitSepCore sep (a :: as) = [] :: splitSepCore sep as := by
  conv_lhs => unfold splitSepCore
  rw [if_pos ha]

theorem splitSepCore_cons_neg {sep a : Char} {as : List Char} {l0 : List Char}
    {ls : List (List Char)} (ha : ¬(a = sep))
    (h : splitSepCore sep as = l0 :: ls) :
    splitSepCore sep (a :: as) = (a :: l0) :: ls := by
  conv_lhs => unfold splitSepCore
  rw [if_neg ha, h]

theorem splitSepCore_mem_no_sep (sep : Char) (l : List Char) :
    ∀ seg ∈ splitSepCore sep l, ∀ c ∈ seg, c ≠ sep := by
  induction l with
  | nil =>
    intro seg hseg c hc
    simp [splitSepCore] at hseg
    subst hseg
    simp at hc
  | cons a as ih =>
    intro seg hseg c hc
    by_cases ha : a = sep
    · rw [splitSepCore_cons_pos ha] at hseg
      simp only [List.mem_cons] at hseg
      cases hseg with
      | inl he => subst he; simp at hc
      | inr hm => exact ih seg hm c hc
    · cases hrec : splitSepCore sep as with
      | nil => exact absurd hrec (splitSepCore_ne_nil sep as)
      | cons l0 ls =>
        rw [splitSepCore_cons_neg ha hrec] at hseg
        simp only [List.mem_cons] at hseg
        cases hseg with
        | inl he =>
          subst he
          simp only [List.mem_cons] at hc
          cases hc with
          | inl hce => rw [hce]; exact ha
          | inr hcm => exact ih l0 (hrec ▸ List.mem_cons_self l0 ls) c hcm
        | inr hm => exact ih seg (hrec ▸ List.mem_cons_of_mem l0 hm) c hc

theorem splitSepCore_mem_subset (sep : Char) (l : List Char) :
    ∀ seg ∈ splitSepCore sep l, ∀ c ∈ seg, c ∈ l := by
  induction l with
  | nil =>
    intro seg hseg c hc
    simp [splitSepCore] at hseg
    subst hseg
    simp at hc
  | cons a as ih =>
    intro seg hseg c hc
    by_cases ha : a = sep
    · rw [splitSepCore_cons_pos ha] at hseg
      simp only [List.mem_cons] at hseg
      cases hseg with
      | inl he => subst he; simp at hc
      | inr hm => exact List.mem_cons_of_mem a (ih seg hm c hc)
    · cases hrec : splitSepCore sep as with
      | nil => exact absurd hrec (splitSepCore_ne_nil sep as)
      | cons l0 ls =>
        rw [splitSepCore_cons_neg ha hrec] at hseg
        simp only [List.mem_cons] at hseg
        cases hseg with
        | inl he =>
          subst he
          simp only [List.mem_cons] at hc
          cases hc with
          | inl hce => exact hce ▸ List.mem_cons_self a as
          | inr hcm =>
            exact List.mem_cons_of_mem a
              (ih l0 (hrec ▸ List.mem_cons_self l0 ls) c hcm)
        | inr hm =>
          exact List.mem_cons_of_mem a
            (ih seg (hrec ▸ List.mem_cons_of_mem l0 hm) c hc)

theorem splitSepCore_no_sep {sep : Char} {seg : List Char}
    (h : ∀ c ∈ seg, c ≠ sep) : splitSepCore sep seg = [seg] := by
  induction seg with
  | nil => rfl
  | cons c cs ih =>
    have hc : ¬(c = sep) := h c (List.mem_cons_self c cs)
    exact splitSepCore_cons_neg hc (ih (fun x hx => h x (List.mem_cons_of_mem c hx)))

theorem splitSepCore_append {sep : Char} {seg rest : List Char}
    (h : ∀ c ∈ seg, c ≠ sep) :
    splitSepCore sep (seg ++ sep :: rest) = seg :: splitSepCore sep rest := by
  induction seg with
  | nil =>
    show splitSepCore sep (sep :: rest) = [] :: splitSepCore sep rest
    exact splitSepCore_cons_pos rfl
  | cons c cs ih =>
    have hc : ¬(c = sep) := h c (List.mem_cons_self c cs)
    show splitSepCore sep (c :: (cs ++ sep :: rest)) = _
    exact splitSepCore_cons_neg hc (ih (fun x hx => h x (List.mem_cons_of_mem c hx)))


theorem lexLeChars_total : ∀ a b : List Char,
    lexLeChars a b = true ∨ lexLeChars b a = true := by
  intro a
  induction a with
  | nil => intro b; left; rfl
  | cons x xs ih =>
    intro b
    cases b with
    | nil => right; rfl
    | cons y ys =>
      unfold lexLeChars
      by_cases hxy : x.toNat < y.toNat
      · left
        rw [if_pos hxy]
      · by_cases hyx : y.toNat < x.toNat
        · right
          rw [if_pos hyx]
        · rw [if_neg hxy, if_neg hyx, if_neg hyx, if_neg hxy]
          exact ih ys

theorem lexLeChars_trans : ∀ a b c : List Char,
    lexLeChars a b = true → lexLeChars b c = true → lexLeChars a c = true := by
  intro a
  induction a with
  | nil => intro b c _ _; rfl
  | cons x xs ih =>
    intro b c hab hbc
    cases b with
    | nil => simp [lexLeChars] at hab
    | cons y ys =>
      cases c with
      | nil => simp [lexLeChars] at hbc
      | cons z zs =>
        unfold lexLeChars at hab hbc ⊢
        by_cases hxy : x.toNat < y.toNat
        · by_cases hyz : y.toNat < z.toNat
          · rw [if_pos (by omega : x.toNat < z.toNat)]
          · by_cases hzy : z.toNat < y.toNat
            · rw [if_neg hyz, if_pos hzy] at hbc
              simp at hbc
            · have hyzEq : y.toNat = z.toNat := by omega
              rw [if_pos (by omega : x.toNat < z.toNat)]
        · by_cases hyx : y.toNat < x.toNat
          · rw [if_neg hxy, if_pos hyx] at hab
            simp at hab
          · have hxyEq : x.toNat = y.toNat := by omega
            by_cases hyz : y.toNat < z.toNat
            · rw [if_pos (by omega : x.toNat < z.toNat)]
            · by_cases hzy : z.toNat < y.toNat
              · rw [if_neg hyz, if_pos hzy] at hbc
                simp at hbc
              · rw [if_neg hxy, if_neg hyx] at hab
                rw [if_neg hyz, if_neg hzy] at hbc
                rw [if_neg (by omega : ¬(x.toNat < z.toNat)),
                  if_neg (by omega : ¬(z.toNat < x.toNat))]
                exact ih ys zs hab hbc

theorem toNat_inj {a b : Char} (h : a.toNat = b.toNat) : a = b := by
  apply Char.ext
  exact UInt32.ext h

theorem lexLeChars_antisymm : ∀ a b : List Char,
    lexLeChars a b = true → lexLeChars b a = true → a = b := by
  intro a
  induction a with
  | nil =>
    intro b _ hba
    cases b with
    | nil => rfl
    | cons y ys => simp [lexLeChars] at hba
  | cons x xs ih =>
    intro b hab hba
    cases b with
    | nil => simp [lexLeChars] at hab
    | cons y ys =>
      unfold lexLeChars at hab hba
      by_cases hxy : x.toNat < y.toNat
      · rw [if_neg (by omega : ¬(y.toNat < x.toNat)), if_pos hxy] at hba
        simp at hba
      · by_cases hyx : y.toNat < x.toNat
        · rw [if_neg hxy, if_pos hyx] at hab
          simp at hab
        · rw [if_neg hxy, if_neg hyx] at hab
          rw [if_neg hyx, if_neg hxy] at hba
          have hxyEq : x = y := toNat_inj (by omega)
          rw [hxyEq, ih ys hab hba]

instance : IsTotal String qLe :=
  ⟨fun a b => lexLeChars_total a.data b.data⟩

instance : IsTrans String qLe :=
  ⟨fun a b c => lexLeChars_trans a.data b.data c.data⟩

theorem qLe_antisymm {a b : String} (hab : qLe a b) (hba : qLe b a) : a = b := by
  cases a with
  | mk ad =>
    cases b with
    | mk bd =>
      have : ad = bd := lexLeChars_antisymm ad bd hab hba
      rw [this]

theorem sortStrings_sorted (l : List String) :
    List.Sorted qLe (sortStrings l) :=
  List.sorted_insertionSort qLe l

theorem sortStrings_perm (l : List String) :
    List.Perm (sortStrings l) l :=
  List.perm_insertionSort qLe l

theorem sortStrings_eq_of_sorted {l : List String}
    (h : List.Sorted qLe l) : sortStrings l = l :=
  List.Sorted.insertionSort_eq h

theorem sortStrings_idem (l : List String) :
    sortStrings (sortStrings l) = sortStrings l :=
  sortStrings_eq_of_sorted (sortStrings_sorted l)

theorem sortStrings_mem {l : List String} {x : String} :
    x ∈ sortStrings l ↔ x ∈ l :=
  (sortStrings_perm l).mem_iff

theorem sortStrings_nodup {l : List String} (h : l.Nodup) :
    (sortStrings l).Nodup :=
  ((sortStrings_perm l).nodup_iff).mpr h

theorem sortStrings_ne_nil {l : List String} (h : l ≠ []) :
    sortStrings l ≠ [] := by
  intro hs
  apply h
  have := (sortStrings_perm l).length_eq
  rw [hs] at this
  exact List.eq_nil_of_length_eq_zero this.symm


/-! ## Query re-encoding: grouping, validity and round-trip -/

/-- The pair list laid out as `Encode` iterates it: for each key in `ks`, its
values in order. -/
def groupedPairs (vs : String → List String) : List String → List (String × String)
  | [] => []
  | k :: ks => (vs k).map (fun v => (k, v)) ++ groupedPairs vs ks

/-- A query key as produced by `parseQuery`: free of the separators. -/
def validKey (k : String) : Prop := ∀ c ∈ k.data, c ≠ '&' ∧ c ≠ '=' ∧ c ≠ ';'

/-- A query value as produced by `parseQuery`: free of '&' and ';'. -/
def validVal (v : String) : Prop := ∀ c ∈ v.data, c ≠ '&' ∧ c ≠ ';'

def validPair (p : String × String) : Prop := validKey p.1 ∧ validVal p.2

/-- One `k=v` segment of `Encode`. -/
def segOf (p : String × String) : String := p.1 ++ "=" ++ p.2

theorem distinctKeys_step_mem {pairs : List (String × String)} :
    ∀ (acc : List String) (x : String),
    x ∈ pairs.foldl (fun acc p => if acc.contains p.1 then acc else acc ++ [p.1]) acc →
    x ∈ acc ∨ x ∈ pairs.map Prod.fst := by
  induction pairs with
  | nil => intro acc x h; exact Or.inl h
  | cons p ps ih =>
    intro acc x h
    simp only [List.foldl_cons] at h
    have hstep := ih _ x h
    by_cases hc : acc.contains p.1
    · rw [if_pos hc] at hstep
      cases hstep with
      | inl ha => exact Or.inl ha
      | inr hm => exact Or.inr (List.mem_cons_of_mem _ hm)
    · rw [if_neg hc] at hstep
      cases hstep with
      | inl ha =>
        cases List.mem_append.mp ha with
        | inl h1 => exact Or.inl h1
        | inr h2 =>
          simp only [List.mem_singleton] at h2
          exact Or.inr (h2 ▸ List.mem_cons_self _ _)
      | inr hm => exact Or.inr (List.mem_cons_of_mem _ hm)

theorem distinctKeys_mem {pairs : List (String × String)} {x : String}
    (h : x ∈ distinctKeys pairs) : x ∈ pairs.map Prod.fst := by
  have := @distinctKeys_step_mem pairs [] x h
  cases this with
  | inl ha => simp at ha
  | inr hm => exact hm

theorem distinctKeys_step_nodup {pairs : List (String × String)} :
    ∀ (acc : List String), acc.Nodup →
    (pairs.foldl (fun acc p => if acc.contains p.1 then acc else acc ++ [p.1]) acc).Nodup := by
  induction pairs with
  | nil => intro acc h; exact h
  | cons p ps ih =>
    intro acc h
    simp only [List.foldl_cons]
    by_cases hc : acc.contains p.1
    · rw [if_pos hc]
      exact ih acc h
    · rw [if_neg hc]
      apply ih
      rw [← List.concat_eq_append]
      refine List.Nodup.concat ?_ h
      intro hmem
      exact hc (List.elem_iff.mpr hmem)

theorem distinctKeys_nodup (pairs : List (String × String)) :
    (distinctKeys pairs).Nodup :=
  distinctKeys_step_nodup [] List.nodup_nil

theorem foldl_keys_skip {k : String} (vlist : List String) :
    ∀ (acc : List String), k ∈ acc →
    (vlist.map (fun v => (k, v))).foldl
      (fun acc p => if acc.contains p.1 then acc else acc ++ [p.1]) acc = acc := by
  induction vlist with
  | nil => intro acc _; rfl
  | cons v vs ih =>
    intro acc hk
    simp only [List.map_cons, List.foldl_cons]
    rw [if_pos (List.elem_iff.mpr hk)]
    exact ih acc hk

theorem foldl_keys_add {k : String} {v : String} (vlist : List String) (acc : List String)
    (hk : k ∉ acc) :
    ((v :: vlist).map (fun v => (k, v))).foldl
      (fun acc p => if acc.contains p.1 then acc else acc ++ [p.1]) acc = acc ++ [k] := by
  simp only [List.map_cons, List.foldl_cons]
  rw [if_neg (fun hc => hk (List.elem_iff.mp hc))]
  exact foldl_keys_skip vlist (acc ++ [k]) (List.mem_append.mpr (Or.inr (List.mem_singleton.mpr rfl)))

theorem distinctKeys_grouped_aux (vs : String → List String) :
    ∀ (ks : List String) (acc : List String), ks.Nodup →
    (∀ k ∈ ks, vs k ≠ []) → (∀ k ∈ ks, k ∉ acc) →
    (groupedPairs vs ks).foldl
      (fun acc p => if acc.contains p.1 then acc else acc ++ [p.1]) acc = acc ++ ks := by
  intro ks
  induction ks with
  | nil => intro acc _ _ _; simp [groupedPairs]
  | cons k ks ih =>
    intro acc hnodup hne hacc
    unfold groupedPairs
    rw [List.foldl_append]
    cases hv : vs k with
    | nil => exact absurd hv (hne k (List.mem_cons_self k ks))
    | cons v vrest =>
      rw [foldl_keys_add vrest acc (hacc k (List.mem_cons_self k ks))]
      rw [ih (acc ++ [k]) (List.nodup_cons.mp hnodup).2
        (fun x hx => hne x (List.mem_cons_of_mem k hx))
        ?_]
      · rw [List.append_assoc]
        rfl
      · intro x hx hmem
        cases List.mem_append.mp hmem with
        | inl h1 => exact hacc x (List.mem_cons_of_mem k hx) h1
        | inr h2 =>
          simp only [List.mem_singleton] at h2
          exact (List.nodup_cons.mp hnodup).1 (h2 ▸ hx)

theorem distinctKeys_grouped (vs : String → List String) (ks : List String)
    (hnodup : ks.Nodup) (hne : ∀ k ∈ ks, vs k ≠ []) :
    distinctKeys (groupedPairs vs ks) = ks := by
  unfold distinctKeys
  rw [distinctKeys_grouped_aux vs ks [] hnodup hne (by intro k _ h; simp at h)]
  rfl

theorem valuesOf_append (xs ys : List (String × String)) (k : String) :
    valuesOf (xs ++ ys) k = valuesOf xs k ++ valuesOf ys k := by
  unfold valuesOf
  rw [List.filter_append, List.map_append]

theorem valuesOf_map_single (k q : String) (vlist : List String) :
    valuesOf (vlist.map (fun v => (q, v))) k
      = if q = k then vlist else [] := by
  induction vlist with
  | nil => simp [valuesOf]
  | cons v vrest ih =>
    simp only [List.map_cons]
    unfold valuesOf at ih ⊢
    by_cases hq : q = k
    · rw [if_pos hq] at ih ⊢
      rw [List.filter_cons, if_pos (by simp [hq]), List.map_cons, ih]
    · rw [if_neg hq] at ih ⊢
      rw [List.filter_cons, if_neg (by simp [hq]), ih]

theorem valuesOf_grouped (vs : String → List String) (ks : List String)
    (hnodup : ks.Nodup) (k : String) (hk : k ∈ ks) :
    valuesOf (groupedPairs vs ks) k = vs k := by
  induction ks with
  | nil => simp at hk
  | cons q qs ih =>
    unfold groupedPairs
    rw [valuesOf_append, valuesOf_map_single]
    cases List.mem_cons.mp hk with
    | inl he =>
      subst he
      rw [if_pos rfl]
      have hnot : k ∉ qs := (List.nodup_cons.mp hnodup).1
      have : valuesOf (groupedPairs vs qs) k = [] := by
        clear ih hk hnodup
        induction qs with
        | nil => rfl
        | cons r rs ihr =>
          unfold groupedPairs
          rw [valuesOf_append, valuesOf_map_single]
          rw [if_neg (fun he2 => hnot (List.mem_cons.mpr (Or.inl he2.symm)))]
          rw [ihr (fun hm => hnot (List.mem_cons_of_mem r hm))]
          rfl
      rw [this, List.append_nil]
    | inr hm =>
      have hq : ¬(q = k) := by
        intro he
        exact (List.nodup_cons.mp hnodup).1 (he ▸ hm)
      rw [if_neg hq, ih (List.nodup_cons.mp hnodup).2 hm]
      rfl

theorem valuesOf_mem {pairs : List (String × String)} {k v : String} :
    v ∈ valuesOf pairs k ↔ (k, v) ∈ pairs := by
  unfold valuesOf
  constructor
  · intro h
    obtain ⟨p, hp, he⟩ := List.mem_map.mp h
    have hf := List.of_mem_filter hp
    have hk : p.1 = k := by simpa using hf
    have : p = (k, v) := by
      cases p with
      | mk a b =>
        simp only at hk he
        rw [hk, he]
    exact this ▸ List.mem_of_mem_filter hp
  · intro h
    apply List.mem_map.mpr
    refine ⟨(k, v), List.mem_filter.mpr ⟨h, by simp⟩, rfl⟩


theorem parseQuery_valid (q : String) : ∀ p ∈ parseQuery q, validPair p := by
  intro p hp
  unfold parseQuery at hp
  obtain ⟨seg, hseg, hf⟩ := List.mem_filterMap.mp hp
  by_cases hnil : seg = []
  · rw [if_pos hnil] at hf
    simp at hf
  · rw [if_neg hnil] at hf
    by_cases hsemi : seg.contains ';'
    · rw [if_pos hsemi] at hf
      simp at hf
    · rw [if_neg hsemi] at hf
      injection hf with hf
      have hnoamp := splitSepCore_mem_no_sep '&' q.data seg hseg
      have hnosemi : ∀ c ∈ seg, c ≠ ';' := by
        intro c hc he
        exact hsemi (List.elem_iff.mpr (he ▸ hc))
      constructor
      · intro c hc
        rw [← hf] at hc
        simp only at hc
        have hcseg : c ∈ seg := splitFirst_fst_subset '=' seg c hc
        exact ⟨hnoamp c hcseg, splitFirst_fst_no_sep '=' seg c hc, hnosemi c hcseg⟩
      · intro c hc
        rw [← hf] at hc
        simp only at hc
        cases hv : (splitFirst '=' seg).2 with
        | none =>
          rw [hv] at hc
          simp at hc
        | some v =>
          rw [hv] at hc
          have hcseg : c ∈ seg := splitFirst_snd_subset '=' seg hv c hc
          exact ⟨hnoamp c hcseg, hnosemi c hcseg⟩

theorem parseQuery_chars (q : String) : ∀ p ∈ parseQuery q,
    (∀ c ∈ p.1.data, c ∈ q.data) ∧ (∀ c ∈ p.2.data, c ∈ q.data) := by
  intro p hp
  unfold parseQuery at hp
  obtain ⟨seg, hseg, hf⟩ := List.mem_filterMap.mp hp
  by_cases hnil : seg = []
  · rw [if_pos hnil] at hf
    simp at hf
  · rw [if_neg hnil] at hf
    by_cases hsemi : seg.contains ';'
    · rw [if_pos hsemi] at hf
      simp at hf
    · rw [if_neg hsemi] at hf
      injection hf with hf
      have hsub := splitSepCore_mem_subset '&' q.data seg hseg
      constructor
      · intro c hc
        rw [← hf] at hc
        simp only at hc
        exact hsub c (splitFirst_fst_subset '=' seg c hc)
      · intro c hc
        rw [← hf] at hc
        simp only at hc
        cases hv : (splitFirst '=' seg).2 with
        | none =>
          rw [hv] at hc
          simp at hc
        | some v =>
          rw [hv] at hc
          exact hsub c (splitFirst_snd_subset '=' seg hv c hc)

theorem segOf_data (p : String × String) :
    (segOf p).data = p.1.data ++ '=' :: p.2.data := by
  show (p.1.data ++ "=".data) ++ p.2.data = _
  rw [List.append_assoc]
  rfl

theorem segOf_no_amp {p : String × String} (hv : validPair p) :
    ∀ c ∈ (segOf p).data, c ≠ '&' := by
  intro c hc
  rw [segOf_data] at hc
  cases List.mem_append.mp hc with
  | inl h1 => exact (hv.1 c h1).1
  | inr h2 =>
    cases List.mem_cons.mp h2 with
    | inl he => subst he; decide
    | inr hm => exact (hv.2 c hm).1

theorem parseQuery_segOf {p : String × String} (hv : validPair p) :
    (if (segOf p).data = [] then (none : Option (String × String))
      else if (segOf p).data.contains ';' then none
      else
        some (String.mk (splitFirst '=' (segOf p).data).1,
          String.mk (match (splitFirst '=' (segOf p).data).2 with
            | some v => v
            | none => []))) = some p := by
  rw [segOf_data]
  rw [if_neg (by simp)]
  have hnosemi : ((p.1.data ++ '=' :: p.2.data).contains ';') = false := by
    rw [Bool.eq_false_iff]
    intro hcon
    have hm := List.elem_iff.mp hcon
    cases List.mem_append.mp hm with
    | inl h1 => exact (hv.1 ';' h1).2.2 rfl
    | inr h2 =>
      cases List.mem_cons.mp h2 with
      | inl he => exact absurd he (by decide)
      | inr hmm => exact (hv.2 ';' hmm).2 rfl
  rw [hnosemi]
  rw [if_neg (by simp)]
  rw [splitFirst_append (fun c hc he => (hv.1 c hc).2.1 he)]

theorem joinAmp_cons2 (x y : String) (rest : List String) :
    joinAmp (x :: y :: rest) = x ++ "&" ++ joinAmp (y :: rest) := rfl

theorem parseQuery_joinAmp : ∀ (ps : List (String × String)),
    (∀ p ∈ ps, validPair p) →
    parseQuery (joinAmp (ps.map segOf)) = ps := by
  intro ps
  induction ps with
  | nil =>
    intro _
    rfl
  | cons p ps ih =>
    intro hv
    have hvp : validPair p := hv p (List.mem_cons_self p ps)
    cases ps with
    | nil =>
      show parseQuery (segOf p) = [p]
      unfold parseQuery
      rw [splitSepCore_no_sep (segOf_no_amp hvp)]
      rw [List.filterMap_cons, List.filterMap_nil]
      rw [parseQuery_segOf hvp]
    | cons p2 rest =>
      have hrec := ih (fun x hx => hv x (List.mem_cons_of_mem p hx))
      show parseQuery (segOf p ++ "&" ++ joinAmp ((p2 :: rest).map segOf)) = p :: p2 :: rest
      unfold parseQuery
      have hdata : (segOf p ++ "&" ++ joinAmp ((p2 :: rest).map segOf)).data
          = (segOf p).data ++ '&' :: (joinAmp ((p2 :: rest).map segOf)).data := by
        show ((segOf p).data ++ "&".data) ++ _ = _
        rw [List.append_assoc]
        rfl
      rw [hdata]
      rw [splitSepCore_append (segOf_no_amp hvp)]
      rw [List.filterMap_cons]
      rw [parseQuery_segOf hvp]
      unfold parseQuery at hrec
      rw [hrec]


theorem encodedSegments_eq_grouped (pairs : List (String × String)) (ks : List String) :
    encodedSegments pairs ks
      = (groupedPairs (fun k => sortStrings (valuesOf pairs k)) ks).map segOf := by
  induction ks with
  | nil => rfl
  | cons k ks ih =>
    show (sortStrings (valuesOf pairs k)).map (fun v => k ++ "=" ++ v)
        ++ encodedSegments pairs ks = _
    rw [ih]
    show _ = ((sortStrings (valuesOf pairs k)).map (fun v => (k, v))
        ++ groupedPairs (fun k => sortStrings (valuesOf pairs k)) ks).map segOf
    rw [List.map_append, List.map_map]
    rfl

theorem encodedSegments_congr {A B : List (String × String)} (ks : List String)
    (h : ∀ k ∈ ks, sortStrings (valuesOf A k) = sortStrings (valuesOf B k)) :
    encodedSegments A ks = encodedSegments B ks := by
  induction ks with
  | nil => rfl
  | cons k ks ih =>
    show (sortStrings (valuesOf A k)).map (fun v => k ++ "=" ++ v)
        ++ encodedSegments A ks
      = (sortStrings (valuesOf B k)).map (fun v => k ++ "=" ++ v)
        ++ encodedSegments B ks
    rw [h k (List.mem_cons_self k ks), ih (fun x hx => h x (List.mem_cons_of_mem k hx))]

theorem groupedPairs_mem {vs : String → List String} {ks : List String}
    {p : String × String} (hp : p ∈ groupedPairs vs ks) :
    ∃ k ∈ ks, p.1 = k ∧ p.2 ∈ vs k := by
  induction ks with
  | nil => simp [groupedPairs] at hp
  | cons k ks ih =>
    unfold groupedPairs at hp
    cases List.mem_append.mp hp with
    | inl h1 =>
      obtain ⟨v, hv, he⟩ := List.mem_map.mp h1
      refine ⟨k, List.mem_cons_self k ks, ?_, ?_⟩
      · rw [← he]
      · rw [← he]
        exact hv
    | inr h2 =>
      obtain ⟨k2, hk2, he⟩ := ih h2
      exact ⟨k2, List.mem_cons_of_mem k hk2, he⟩

theorem key_mem_pairs {q : String} {k : String}
    (hk : k ∈ distinctKeys (parseQuery q)) :
    ∃ v, (k, v) ∈ parseQuery q := by
  have hk2 := distinctKeys_mem hk
  obtain ⟨pk, hpk, hpke⟩ := List.mem_map.mp hk2
  refine ⟨pk.2, ?_⟩
  cases pk with
  | mk a b =>
    simp only at hpke
    subst hpke
    exact hpk

/-- The re-encoding step of `NormalizeURL` is a fixed point of itself: the
keys come back sorted and deduplication-stable, every value list comes back
sorted, so re-parsing and re-encoding reproduce the same string. -/
theorem sortedEncodedQuery_idem (q : String) :
    sortedEncodedQuery (sortedEncodedQuery q) = sortedEncodedQuery q := by
  have hvalid : ∀ p ∈ groupedPairs
      (fun k => sortStrings (valuesOf (parseQuery q) k))
      (sortStrings (distinctKeys (parseQuery q))), validPair p := by
    intro p hp
    obtain ⟨k, hk, he1, he2⟩ := groupedPairs_mem hp
    have hv2 : p.2 ∈ valuesOf (parseQuery q) k := sortStrings_mem.mp he2
    have hpair : (k, p.2) ∈ parseQuery q := valuesOf_mem.mp hv2
    have hvv := parseQuery_valid q (k, p.2) hpair
    exact ⟨he1 ▸ hvv.1, hvv.2⟩
  have hout : sortedEncodedQuery q
      = joinAmp ((groupedPairs
          (fun k => sortStrings (valuesOf (parseQuery q) k))
          (sortStrings (distinctKeys (parseQuery q)))).map segOf) := by
    unfold sortedEncodedQuery
    rw [encodedSegments_eq_grouped]
  have hparse : parseQuery (sortedEncodedQuery q)
      = groupedPairs (fun k => sortStrings (valuesOf (parseQuery q) k))
          (sortStrings (distinctKeys (parseQuery q))) := by
    rw [hout]
    exact parseQuery_joinAmp _ hvalid
  have hknodup : (sortStrings (distinctKeys (parseQuery q))).Nodup :=
    sortStrings_nodup (distinctKeys_nodup _)
  have hvne : ∀ k ∈ sortStrings (distinctKeys (parseQuery q)),
      sortStrings (valuesOf (parseQuery q) k) ≠ [] := by
    intro k hk
    obtain ⟨v, hv⟩ := key_mem_pairs (sortStrings_mem.mp hk)
    apply sortStrings_ne_nil
    intro hnil
    have : v ∈ valuesOf (parseQuery q) k := valuesOf_mem.mpr hv
    rw [hnil] at this
    exact absurd this (List.not_mem_nil v)
  have hcongr : encodedSegments
      (groupedPairs (fun k => sortStrings (valuesOf (parseQuery q) k))
        (sortStrings (distinctKeys (parseQuery q))))
      (sortStrings (distinctKeys (parseQuery q)))
      = encodedSegments (parseQuery q) (sortStrings (distinctKeys (parseQuery q))) := by
    apply encodedSegments_congr
    intro k hk
    rw [valuesOf_grouped _ _ hknodup k hk]
    exact sortStrings_idem _
  show joinAmp (encodedSegments (parseQuery (sortedEncodedQuery q))
      (sortStrings (distinctKeys (parseQuery (sortedEncodedQuery q))))) = _
  rw [hparse]
  rw [distinctKeys_grouped _ _ hknodup hvne]
  rw [sortStrings_eq_of_sorted (sortStrings_sorted _)]
  rw [hcongr]
  rfl


/-! ## Round trip between `parseURL` and `urlString` -/

/-- Well-formedness of parsed components, exactly what the `parseURL`
validation enforces, plus the path shape the grammar guarantees. -/
def componentsValid (u : GoURL) : Prop :=
  headIsAlpha u.scheme.data = true
  ∧ u.scheme.data.all isSchemeChar = true
  ∧ u.host.data.all isHostChar = true
  ∧ u.path.data.all isPathChar = true
  ∧ u.rawQuery.data.all isQueryStringChar = true
  ∧ (u.path.data = [] ∨ ∃ t, u.path.data = '/' :: t)

theorem takeWhile_append_of_all {p : Char → Bool} {a : List Char}
    (h : ∀ c ∈ a, p c = true) (b : List Char) :
    (a ++ b).takeWhile p = a ++ b.takeWhile p := by
  induction a with
  | nil => rfl
  | cons x xs ih =>
    show ((x :: (xs ++ b)).takeWhile p) = _
    rw [List.takeWhile_cons, if_pos (by simp [h x (List.mem_cons_self x xs)])]
    rw [ih (fun c hc => h c (List.mem_cons_of_mem x hc))]
    rfl

theorem dropWhile_append_of_all {p : Char → Bool} {a : List Char}
    (h : ∀ c ∈ a, p c = true) (b : List Char) :
    (a ++ b).dropWhile p = b.dropWhile p := by
  induction a with
  | nil => rfl
  | cons x xs ih =>
    show ((x :: (xs ++ b)).dropWhile p) = _
    rw [List.dropWhile_cons]
    simp only [h x (List.mem_cons_self x xs), if_true]
    exact ih (fun c hc => h c (List.mem_cons_of_mem x hc))

theorem takeWhile_cons_false {p : Char → Bool} {x : Char} (t : List Char)
    (h : p x = false) : (x :: t).takeWhile p = [] := by
  rw [List.takeWhile_cons]
  simp [h]

theorem dropWhile_cons_false {p : Char → Bool} {x : Char} (t : List Char)
    (h : p x = false) : (x :: t).dropWhile p = x :: t := by
  rw [List.dropWhile_cons]
  simp [h]

theorem parseURL_sound {s : String} {u : GoURL} (h : parseURL s = some u) :
    componentsValid u := by
  simp only [parseURL] at h
  split at h
  · rename_i schemeCs rest1 heqsf
    split at h
    · rename_i rest2
      split at h
      · rename_i hcond
        simp only [Bool.and_eq_true] at hcond
        obtain ⟨⟨⟨⟨h1, h2⟩, h3⟩, h4⟩, h5⟩ := hcond
        injection h with h
        subst h
        refine ⟨h1, h2, h3, h4, h5, ?_⟩
        show (splitFirst '?' (rest2.dropWhile (fun c => !(c = '/' || c = '?')))).1 = []
          ∨ ∃ t, (splitFirst '?' (rest2.dropWhile (fun c => !(c = '/' || c = '?')))).1 = '/' :: t
        cases hr3 : rest2.dropWhile (fun c => !(c = '/' || c = '?')) with
        | nil =>
          left
          rfl
        | cons r rs =>
          have h0 := head_dropWhile_false hr3
          simp at h0
          by_cases hq : r = '?'
          · left
            rw [splitFirst_cons_pos hq]
          · have hslash : r = '/' := by
              by_contra hs
              exact hq (h0 hs)
            right
            refine ⟨(splitFirst '?' rs).1, ?_⟩
            rw [splitFirst_cons_neg hq, hslash]
      all_goals exact absurd h (by simp)
    all_goals exact absurd h (by simp)
  all_goals exact absurd h (by simp)


theorem schemeChar_ne {c : Char} (h : isSchemeChar c = true) :
    c ≠ ':' ∧ c ≠ '#' := by
  constructor
  · rintro rfl
    exact absurd h (by decide)
  · rintro rfl
    exact absurd h (by decide)

theorem hostChar_ne {c : Char} (h : isHostChar c = true) :
    c ≠ '/' ∧ c ≠ '?' ∧ c ≠ '#' := by
  refine ⟨?_, ?_, ?_⟩ <;> (rintro rfl; exact absurd h (by decide))

theorem pathChar_ne {c : Char} (h : isPathChar c = true) :
    c ≠ '?' ∧ c ≠ '#' := by
  constructor <;> (rintro rfl; exact absurd h (by decide))

theorem queryStringChar_ne {c : Char} (h : isQueryStringChar c = true) :
    c ≠ '#' := by
  rintro rfl
  exact absurd h (by decide)

theorem hostPred_true {c : Char} (h1 : c ≠ '/') (h2 : c ≠ '?') :
    (!(c = '/' || c = '?')) = true := by
  simp [h1, h2]

theorem urlString_data_query_nil {u : GoURL} (hfrag : u.fragment = "")
    (hq : u.rawQuery = "") :
    (urlString u).data
      = u.scheme.data ++ ':' :: '/' :: '/' :: (u.host.data ++ u.path.data) := by
  unfold urlString
  rw [hfrag, hq, if_pos rfl, if_pos rfl]
  show u.scheme.data ++ "://".data ++ u.host.data ++ u.path.data ++ "".data ++ "".data = _
  simp [List.append_assoc]

theorem urlString_data_query_ne {u : GoURL} (hfrag : u.fragment = "")
    (hq : ¬(u.rawQuery = "")) :
    (urlString u).data
      = u.scheme.data ++ ':' :: '/' :: '/'
          :: (u.host.data ++ (u.path.data ++ '?' :: u.rawQuery.data)) := by
  unfold urlString
  rw [hfrag, if_neg hq, if_pos rfl]
  show u.scheme.data ++ "://".data ++ u.host.data ++ u.path.data
      ++ ("?".data ++ u.rawQuery.data) ++ "".data = _
  simp [List.append_assoc]

theorem parseURL_urlString {v : GoURL} (hv : componentsValid v)
    (hfrag : v.fragment = "") : parseURL (urlString v) = some v := by
  obtain ⟨hh, hs, hhost, hpath, hquery, hshape⟩ := hv
  have hs' := List.all_eq_true.mp hs
  have hhost' := List.all_eq_true.mp hhost
  have hpath' := List.all_eq_true.mp hpath
  have hquery' := List.all_eq_true.mp hquery
  by_cases hq : v.rawQuery = ""
  · -- query empty
    have hdata := urlString_data_query_nil hfrag hq
    have hnohash : ∀ c ∈ (urlString v).data, c ≠ '#' := by
      intro c hc
      rw [hdata] at hc
      cases List.mem_append.mp hc with
      | inl h1 => exact (schemeChar_ne (hs' c h1)).2
      | inr h2 =>
        cases List.mem_cons.mp h2 with
        | inl he => subst he; decide
        | inr h3 =>
          cases List.mem_cons.mp h3 with
          | inl he => subst he; decide
          | inr h4 =>
            cases List.mem_cons.mp h4 with
            | inl he => subst he; decide
            | inr h5 =>
              cases List.mem_append.mp h5 with
              | inl h6 => exact (hostChar_ne (hhost' c h6)).2.2
              | inr h7 => exact (pathChar_ne (hpath' c h7)).2
    have hsplitc : splitFirst ':' (urlString v).data
        = (v.scheme.data, some ('/' :: '/' :: (v.host.data ++ v.path.data))) := by
      rw [hdata]
      exact splitFirst_append (fun c hc => (schemeChar_ne (hs' c hc)).1)
    have htake : ((v.host.data ++ v.path.data).takeWhile
        (fun c => !(c = '/' || c = '?'))) = v.host.data := by
      rw [takeWhile_append_of_all (fun c hc =>
        hostPred_true (hostChar_ne (hhost' c hc)).1 (hostChar_ne (hhost' c hc)).2.1)]
      cases hshape with
      | inl hnil =>
        rw [hnil]
        simp
      | inr hcons =>
        obtain ⟨t, ht⟩ := hcons
        rw [ht, takeWhile_cons_false t (by decide), List.append_nil]
    have hdrop : ((v.host.data ++ v.path.data).dropWhile
        (fun c => !(c = '/' || c = '?'))) = v.path.data := by
      rw [dropWhile_append_of_all (fun c hc =>
        hostPred_true (hostChar_ne (hhost' c hc)).1 (hostChar_ne (hhost' c hc)).2.1)]
      cases hshape with
      | inl hnil =>
        rw [hnil]
        simp
      | inr hcons =>
        obtain ⟨t, ht⟩ := hcons
        rw [ht]
        exact dropWhile_cons_false t (by decide)
    have hsplitq : splitFirst '?' v.path.data = (v.path.data, none) :=
      splitFirst_of_no_sep (fun c hc => (pathChar_ne (hpath' c hc)).1)
    simp only [parseURL]
    rw [splitFirst_of_no_sep hnohash]
    simp only [hsplitc, htake, hdrop, hsplitq]
    simp only [hh, hs, hhost, hpath, List.all_nil, Bool.and_true, Bool.true_and]
    rw [if_pos trivial]
    conv_rhs => rw [show v = (⟨v.scheme, v.host, v.path, v.rawQuery, v.fragment⟩ : GoURL)
      from rfl, hq, hfrag]
  · -- query non-empty
    have hdata := urlString_data_query_ne hfrag hq
    have hnohash : ∀ c ∈ (urlString v).data, c ≠ '#' := by
      intro c hc
      rw [hdata] at hc
      cases List.mem_append.mp hc with
      | inl h1 => exact (schemeChar_ne (hs' c h1)).2
      | inr h2 =>
        cases List.mem_cons.mp h2 with
        | inl he => subst he; decide
        | inr h3 =>
          cases List.mem_cons.mp h3 with
          | inl he => subst he; decide
          | inr h4 =>
            cases List.mem_cons.mp h4 with
            | inl he => subst he; decide
            | inr h5 =>
              cases List.mem_append.mp h5 with
              | inl h6 => exact (hostChar_ne (hhost' c h6)).2.2
              | inr h7 =>
                cases List.mem_append.mp h7 with
                | inl h8 => exact (pathChar_ne (hpath' c h8)).2
                | inr h9 =>
                  cases List.mem_cons.mp h9 with
                  | inl he => subst he; decide
                  | inr h10 => exact queryStringChar_ne (hquery' c h10)
    have hsplitc : splitFirst ':' (urlString v).data
        = (v.scheme.data, some ('/' :: '/'
            :: (v.host.data ++ (v.path.data ++ '?' :: v.rawQuery.data)))) := by
      rw [hdata]
      exact splitFirst_append (fun c hc => (schemeChar_ne (hs' c hc)).1)
    have htake : ((v.host.data ++ (v.path.data ++ '?' :: v.rawQuery.data)).takeWhile
        (fun c => !(c = '/' || c = '?'))) = v.host.data := by
      rw [takeWhile_append_of_all (fun c hc =>
        hostPred_true (hostChar_ne (hhost' c hc)).1 (hostChar_ne (hhost' c hc)).2.1)]
      cases hshape with
      | inl hnil =>
        rw [hnil, List.nil_append, takeWhile_cons_false _ (by decide), List.append_nil]
      | inr hcons =>
        obtain ⟨t, ht⟩ := hcons
        rw [ht, List.cons_append, takeWhile_cons_false _ (by decide), List.append_nil]
    have hdrop : ((v.host.data ++ (v.path.data ++ '?' :: v.rawQuery.data)).dropWhile
        (fun c => !(c = '/' || c = '?'))) = v.path.data ++ '?' :: v.rawQuery.data := by
      rw [dropWhile_append_of_all (fun c hc =>
        hostPred_true (hostChar_ne (hhost' c hc)).1 (hostChar_ne (hhost' c hc)).2.1)]
      cases hshape with
      | inl hnil =>
        rw [hnil, List.nil_append]
        exact dropWhile_cons_false _ (by decide)
      | inr hcons =>
        obtain ⟨t, ht⟩ := hcons
        rw [ht, List.cons_append]
        exact dropWhile_cons_false _ (by decide)
    have hsplitq : splitFirst '?' (v.path.data ++ '?' :: v.rawQuery.data)
        = (v.path.data, some v.rawQuery.data) :=
      splitFirst_append (fun c hc => (pathChar_ne (hpath' c hc)).1)
    simp only [parseURL]
    rw [splitFirst_of_no_sep hnohash]
    simp only [hsplitc, htake, hdrop, hsplitq]
    simp only [hh, hs, hhost, hpath, hquery, Bool.and_true, Bool.true_and]
    rw [if_pos trivial]
    conv_rhs => rw [show v = (⟨v.scheme, v.host, v.path, v.rawQuery, v.fragment⟩ : GoURL)
      from rfl, hfrag]


/-! ## Lowercasing preserves the URL character classes -/

theorem toLowerChar_eq_self {c : Char} (h : ¬(65 ≤ c.toNat ∧ c.toNat ≤ 90)) :
    toLowerChar c = c := by
  unfold toLowerChar
  rw [if_neg h]

theorem isLower_of_toNat {c : Char} (h1 : 97 ≤ c.toNat) (h2 : c.toNat ≤ 122) :
    c.isLower = true := by
  have g1 : (97 : UInt32).toNat ≤ c.val.toNat := by simpa using h1
  have g2 : c.val.toNat ≤ (122 : UInt32).toNat := by simpa using h2
  simp [Char.isLower]
  exact ⟨g1, g2⟩

theorem toLowerChar_isAlpha {c : Char} (h : c.isAlpha = true) :
    (toLowerChar c).isAlpha = true := by
  by_cases hu : 65 ≤ c.toNat ∧ c.toNat ≤ 90
  · have ht : (toLowerChar c).toNat = c.toNat + 32 := by
      unfold toLowerChar
      rw [if_pos hu]
      exact toNat_ofNat_valid (by omega)
    have hlow : (toLowerChar c).isLower = true :=
      isLower_of_toNat (by omega) (by omega)
    simp [Char.isAlpha, hlow]
  · rw [toLowerChar_eq_self hu]
    exact h

theorem isSchemeChar_toLowerChar {c : Char} (h : isSchemeChar c = true) :
    isSchemeChar (toLowerChar c) = true := by
  unfold isSchemeChar at h ⊢
  simp only [Bool.or_eq_true, decide_eq_true_eq] at h ⊢
  rcases h with ((((ha | hd) | hp) | hm) | hdot)
  · exact Or.inl (Or.inl (Or.inl (Or.inl (toLowerChar_isAlpha ha))))
  · rw [toLowerChar_of_isDigit hd]
    exact Or.inl (Or.inl (Or.inl (Or.inr hd)))
  · subst hp
    decide
  · subst hm
    decide
  · subst hdot
    decide

theorem isHostChar_toLowerChar {c : Char} (h : isHostChar c = true) :
    isHostChar (toLowerChar c) = true := by
  unfold isHostChar at h ⊢
  simp only [Bool.or_eq_true, decide_eq_true_eq] at h ⊢
  rcases h with ((((ha | hd) | hp) | hm) | hdot)
  · exact Or.inl (Or.inl (Or.inl (Or.inl (toLowerChar_isAlpha ha))))
  · rw [toLowerChar_of_isDigit hd]
    exact Or.inl (Or.inl (Or.inl (Or.inr hd)))
  · subst hp
    decide
  · subst hm
    decide
  · subst hdot
    decide

theorem headIsAlpha_lowerRun {l : List Char} (h : headIsAlpha l = true) :
    headIsAlpha (lowerRun l) = true := by
  cases l with
  | nil => exact absurd h (by decide)
  | cons c t =>
    show headIsAlpha (toLowerChar c :: lowerRun t) = true
    exact toLowerChar_isAlpha h

theorem all_lowerRun {p : Char → Bool}
    (hp : ∀ c, p c = true → p (toLowerChar c) = true)
    {l : List Char} (h : l.all p = true) : (lowerRun l).all p = true := by
  rw [List.all_eq_true] at h ⊢
  intro x hx
  unfold lowerRun at hx
  obtain ⟨a, ha, rfl⟩ := List.mem_map.mp hx
  exact hp a (h a ha)

/-! ## Trailing-slash trimming: character and shape preservation -/

theorem endsWithSlash_nil {p : String} (hd : p.data = []) :
    endsWithSlash p = false := by
  unfold endsWithSlash
  rw [hd]
  rfl

theorem endsWithSlash_rev {p : String} (h : endsWithSlash p = true) :
    ∃ rest, p.data.reverse = '/' :: rest := by
  cases hrev : p.data.reverse with
  | nil =>
    have hd : p.data = [] := by
      have := congrArg List.reverse hrev
      simpa using this
    rw [endsWithSlash_nil hd] at h
    exact absurd h (by decide)
  | cons c rest =>
    have hd : p.data = rest.reverse ++ [c] := by
      have := congrArg List.reverse hrev
      simpa using this
    have hc : c = '/' := by
      have h2 : endsWithSlash p = decide (c = '/') := by
        unfold endsWithSlash
        rw [hd, List.getLast?_concat]
      rw [h2] at h
      exact of_decide_eq_true h
    subst hc
    exact ⟨rest, rfl⟩

theorem trimSuffixSlash_data {p : String} {rest : List Char}
    (hrev : p.data.reverse = '/' :: rest) :
    (trimSuffixSlash p).data = rest.reverse := by
  unfold trimSuffixSlash
  rw [hrev]
  rfl

theorem trimSuffixSlash_subset {p : String} {c : Char}
    (hc : c ∈ (trimSuffixSlash p).data) : c ∈ p.data := by
  unfold trimSuffixSlash at hc
  split at hc
  · rename_i rest hrev
    have hmem : c ∈ p.data.reverse := by
      rw [hrev]
      exact List.mem_cons_of_mem _ (by simpa using hc)
    simpa using hmem
  · exact hc

theorem trimSuffixSlash_shape {p : String} {t : List Char}
    (hp : p.data = '/' :: t) (hne : ¬(p = "/")) (hends : endsWithSlash p = true) :
    ∃ t2, (trimSuffixSlash p).data = '/' :: t2 := by
  obtain ⟨rest, hrev⟩ := endsWithSlash_rev hends
  have hd : p.data = rest.reverse ++ ['/'] := by
    have := congrArg List.reverse hrev
    simpa using this
  cases hrr : rest.reverse with
  | nil =>
    rw [hrr] at hd
    have hps : p = "/" := by
      have he : p = String.mk p.data := rfl
      rw [he, hd]
      rfl
    exact absurd hps hne
  | cons c0 t2 =>
    rw [hrr] at hd
    rw [hp] at hd
    injection hd with h1 h2
    refine ⟨t2, ?_⟩
    rw [trimSuffixSlash_data hrev, hrr, ← h1]

/-! ## The re-encoded query stays inside the query charset -/

theorem concatMapStr_mem {f : String → List String} {x : String} :
    ∀ {ks : List String}, x ∈ concatMapStr f ks → ∃ k ∈ ks, x ∈ f k := by
  intro ks
  induction ks with
  | nil =>
    intro h
    exact absurd h (by intro hx; cases hx)
  | cons k ks ih =>
    intro h
    have h2 : x ∈ f k ++ concatMapStr f ks := h
    cases List.mem_append.mp h2 with
    | inl h1 => exact ⟨k, by simp, h1⟩
    | inr h3 =>
      obtain ⟨k2, hk2, hx⟩ := ih h3
      exact ⟨k2, List.mem_cons_of_mem _ hk2, hx⟩

theorem joinAmp_chars : ∀ (l : List String) (c : Char), c ∈ (joinAmp l).data →
    c = '&' ∨ ∃ s ∈ l, c ∈ s.data := by
  intro l
  induction l with
  | nil =>
    intro c hc
    cases hc
  | cons x xs ih =>
    cases xs with
    | nil =>
      intro c hc
      exact Or.inr ⟨x, by simp, hc⟩
    | cons y ys =>
      intro c hc
      rw [joinAmp_cons2] at hc
      have hc2 : c ∈ (x.data ++ ['&']) ++ (joinAmp (y :: ys)).data := hc
      cases List.mem_append.mp hc2 with
      | inl h1 =>
        cases List.mem_append.mp h1 with
        | inl h2 => exact Or.inr ⟨x, by simp, h2⟩
        | inr h3 =>
          left
          simpa using h3
      | inr h4 =>
        cases ih c h4 with
        | inl h5 => exact Or.inl h5
        | inr h6 =>
          obtain ⟨s, hs, hcs⟩ := h6
          exact Or.inr ⟨s, List.mem_cons_of_mem _ hs, hcs⟩

theorem sortedEncodedQuery_chars {q : String}
    (hq : q.data.all isQueryStringChar = true) :
    (sortedEncodedQuery q).data.all isQueryStringChar = true := by
  rw [List.all_eq_true] at hq ⊢
  intro c hc
  unfold sortedEncodedQuery at hc
  cases joinAmp_chars _ c hc with
  | inl h1 =>
    subst h1
    decide
  | inr h2 =>
    obtain ⟨s, hs, hcs⟩ := h2
    have hs2 : s ∈ concatMapStr (fun k => (sortStrings (valuesOf (parseQuery q) k)).map
        (fun v => k ++ "=" ++ v)) (sortStrings (distinctKeys (parseQuery q))) := hs
    obtain ⟨k, hk, hsk⟩ := concatMapStr_mem hs2
    obtain ⟨v, hv, rfl⟩ := List.mem_map.mp hsk
    have hc3 : c ∈ (k.data ++ ['=']) ++ v.data := hcs
    have hvmem : (k, v) ∈ parseQuery q := valuesOf_mem.mp (sortStrings_mem.mp hv)
    cases List.mem_append.mp hc3 with
    | inl h4 =>
      cases List.mem_append.mp h4 with
      | inl h5 => exact hq c ((parseQuery_chars q _ hvmem).1 c h5)
      | inr h6 =>
        have he : c = '=' := by simpa using h6
        subst he
        decide
    | inr h7 => exact hq c ((parseQuery_chars q _ hvmem).2 c h7)

/-! ## Validity and fixed point of the normalization -/

theorem componentsValid_normalizeStruct {u : GoURL} (h : componentsValid u) :
    componentsValid (normalizeStruct u) := by
  obtain ⟨hh, hs, hhost, hpath, hquery, hshape⟩ := h
  refine ⟨headIsAlpha_lowerRun hh,
    all_lowerRun (fun c hc => isSchemeChar_toLowerChar hc) hs,
    all_lowerRun (fun c hc => isHostChar_toLowerChar hc) hhost, ?_,
    sortedEncodedQuery_chars hquery, ?_⟩
  · show (if u.path ≠ "/" && endsWithSlash u.path then trimSuffixSlash u.path
      else u.path).data.all isPathChar = true
    by_cases hcond : (u.path ≠ "/" && endsWithSlash u.path : Bool) = true
    · rw [if_pos hcond]
      rw [List.all_eq_true] at hpath ⊢
      intro c hc
      exact hpath c (trimSuffixSlash_subset hc)
    · rw [if_neg hcond]
      exact hpath
  · show ((if u.path ≠ "/" && endsWithSlash u.path then trimSuffixSlash u.path
        else u.path).data = []
      ∨ ∃ t, (if u.path ≠ "/" && endsWithSlash u.path then trimSuffixSlash u.path
        else u.path).data = '/' :: t)
    by_cases hcond : (u.path ≠ "/" && endsWithSlash u.path : Bool) = true
    · rw [if_pos hcond]
      rw [Bool.and_eq_true] at hcond
      have hne : ¬(u.path = "/") := of_decide_eq_true hcond.1
      have hends : endsWithSlash u.path = true := hcond.2
      cases hshape with
      | inl hnil =>
        rw [endsWithSlash_nil hnil] at hends
        exact absurd hends (by decide)
      | inr hex =>
        obtain ⟨t, ht⟩ := hex
        exact Or.inr (trimSuffixSlash_shape ht hne hends)
    · rw [if_neg hcond]
      exact hshape

theorem trim_if_fixed {p : String} (h : p = "/" ∨ endsWithSlash p = false) :
    (if p ≠ "/" && endsWithSlash p then trimSuffixSlash p else p) = p := by
  cases h with
  | inl h1 =>
    rw [h1]
    decide
  | inr h2 =>
    rw [h2, Bool.and_false]
    rfl

theorem normalizeStruct_fixed {u : GoURL}
    (hcond : (normalizeStruct u).path = "/"
      ∨ endsWithSlash (normalizeStruct u).path = false) :
    normalizeStruct (normalizeStruct u) = normalizeStruct u := by
  show GoURL.mk _ _ _ _ _ = normalizeStruct u
  conv_rhs => rw [show normalizeStruct u = GoURL.mk (normalizeStruct u).scheme
    (normalizeStruct u).host (normalizeStruct u).path (normalizeStruct u).rawQuery
    (normalizeStruct u).fragment from rfl]
  rw [GoURL.mk.injEq]
  refine ⟨?_, ?_, trim_if_fixed hcond, sortedEncodedQuery_idem u.rawQuery, rfl⟩
  · show lowerString (String.mk (lowerRun u.scheme.data)) = String.mk (lowerRun u.scheme.data)
    exact lowerString_of_lowerRun u.scheme.data
  · show lowerString (String.mk (lowerRun u.host.data)) = String.mk (lowerRun u.host.data)
    exact lowerString_of_lowerRun u.host.data


/-! ## Claims C6 and C7: URL normalization -/

/-- C6: the claim says the normalized query keeps the keys in their original
order.  It does not: `url.Values.Encode` sorts the keys.  On
`http://example.com/path?b=1&a=2` the code emits `?a=2&b=1` while the
spec-modelled original-key-order re-encoding emits `?b=1&a=2`, and the two
normalizations disagree. -/
theorem c6_key_order_counterexample :
    NormalizeURL "http://example.com/path?b=1&a=2"
      = some "http://example.com/path?a=2&b=1"
    ∧ normalizeSpecKeyOrder "http://example.com/path?b=1&a=2"
      = some "http://example.com/path?b=1&a=2"
    ∧ NormalizeURL "http://example.com/path?b=1&a=2"
      ≠ normalizeSpecKeyOrder "http://example.com/path?b=1&a=2" := by
  refine ⟨by decide, by decide, by decide⟩

/-- C6 (amended): for every parseable URL, `NormalizeURL` lowercases the
scheme and host, drops the fragment, strips one trailing '/' unless the path
is exactly "/", and re-encodes the query with the keys in sorted order (not
the original order) and each key's list of values sorted. -/
theorem c6_normalize_sorts_query_keys (raw : String) (u : GoURL)
    (hp : parseURL raw = some u) :
    NormalizeURL raw = some (urlString
      { scheme := lowerString u.scheme
        host := lowerString u.host
        path := if u.path ≠ "/" && endsWithSlash u.path then trimSuffixSlash u.path
          else u.path
        rawQuery := joinAmp (encodedSegments (parseQuery u.rawQuery)
          (sortStrings (distinctKeys (parseQuery u.rawQuery))))
        fragment := "" })
    ∧ List.Sorted qLe (sortStrings (distinctKeys (parseQuery u.rawQuery)))
    ∧ ∀ k, List.Sorted qLe (sortStrings (valuesOf (parseQuery u.rawQuery) k)) := by
  refine ⟨?_, sortStrings_sorted _, fun k => sortStrings_sorted _⟩
  unfold NormalizeURL
  rw [hp]
  rfl

theorem c6_normalize_sorts_query_keys_witness :
    NormalizeURL "http://example.com/path?b=1&a=2" = some (urlString
      { scheme := lowerString "http"
        host := lowerString "example.com"
        path := if ("/path" : String) ≠ "/" && endsWithSlash "/path"
          then trimSuffixSlash "/path" else "/path"
        rawQuery := joinAmp (encodedSegments (parseQuery "b=1&a=2")
          (sortStrings (distinctKeys (parseQuery "b=1&a=2"))))
        fragment := "" })
    ∧ List.Sorted qLe (sortStrings (distinctKeys (parseQuery "b=1&a=2")))
    ∧ List.Sorted qLe (sortStrings (valuesOf (parseQuery "b=1&a=2") "a")) :=
  ⟨(c6_normalize_sorts_query_keys "http://example.com/path?b=1&a=2"
      ⟨"http", "example.com", "/path", "b=1&a=2", ""⟩ (by decide)).1,
   (c6_normalize_sorts_query_keys "http://example.com/path?b=1&a=2"
      ⟨"http", "example.com", "/path", "b=1&a=2", ""⟩ (by decide)).2.1,
   (c6_normalize_sorts_query_keys "http://example.com/path?b=1&a=2"
      ⟨"http", "example.com", "/path", "b=1&a=2", ""⟩ (by decide)).2.2 "a"⟩

/-- C7: normalization is not idempotent.  `strings.TrimSuffix(path, "/")`
strips only one trailing slash, so `http://example.com/a//` normalizes to
`http://example.com/a/`, which normalizes again to `http://example.com/a`:
applying the function to its own output changes the string. -/
theorem c7_idempotence_counterexample :
    NormalizeURL "http://example.com/a//" = some "http://example.com/a/"
    ∧ NormalizeURL "http://example.com/a/" = some "http://example.com/a"
    ∧ (NormalizeURL "http://example.com/a//").bind NormalizeURL
      ≠ NormalizeURL "http://example.com/a//" := by
  refine ⟨by decide, by decide, by decide⟩

/-- C7 (amended): normalization is idempotent on every input whose normalized
form does not end in a stripped-off slash: whenever `parseURL raw = some u`
and the normalized path is "/" or does not end with '/', `NormalizeURL raw`
returns `urlString (normalizeStruct u)` and `NormalizeURL` maps that output
to itself. -/
theorem c7_normalize_idempotent_unless_trailing_slash (raw : String) (u : GoURL)
    (hp : parseURL raw = some u)
    (hcond : (normalizeStruct u).path = "/"
      ∨ endsWithSlash (normalizeStruct u).path = false) :
    NormalizeURL raw = some (urlString (normalizeStruct u))
    ∧ NormalizeURL (urlString (normalizeStruct u))
      = some (urlString (normalizeStruct u)) := by
  have h1 : NormalizeURL raw = some (urlString (normalizeStruct u)) := by
    unfold NormalizeURL
    rw [hp]
  have hvalid := componentsValid_normalizeStruct (parseURL_sound hp)
  have h2 : parseURL (urlString (normalizeStruct u)) = some (normalizeStruct u) :=
    parseURL_urlString hvalid rfl
  refine ⟨h1, ?_⟩
  unfold NormalizeURL
  rw [h2]
  show some (urlString (normalizeStruct (normalizeStruct u)))
    = some (urlString (normalizeStruct u))
  rw [normalizeStruct_fixed hcond]

theorem c7_normalize_idempotent_unless_trailing_slash_witness :
    NormalizeURL "http://example.com/a/b?x=1"
      = some (urlString (normalizeStruct ⟨"http", "example.com", "/a/b", "x=1", ""⟩))
    ∧ NormalizeURL (urlString (normalizeStruct
        ⟨"http", "example.com", "/a/b", "x=1", ""⟩))
      = some (urlString (normalizeStruct ⟨"http", "example.com", "/a/b", "x=1", ""⟩)) :=
  c7_normalize_idempotent_unless_trailing_slash "http://example.com/a/b?x=1"
    ⟨"http", "example.com", "/a/b", "x=1", ""⟩ (by decide) (by decide)


/-! ## Store model: the tables and SQL statements behind indexing, ranking,
search and the frontier queue -/

inductive FrontierStatusEnum
  | StatusUnvisited
  | StatusInProgress
  | StatusCompleted
  | StatusFailed
deriving DecidableEq

structure FrontierItem where
  url : String
  urlNorm : String
  parentUrl : String
  depth : Nat
  status : FrontierStatusEnum
deriving DecidableEq

structure DocRow where
  id : Nat
  url : String
  domain : String
  hash : String
  len : Nat
deriving DecidableEq

structure TermRow where
  id : Nat
  raw : String
  df : Option Nat
deriving DecidableEq

structure PostingRow where
  termId : Nat
  docId : Nat
  tfRaw : Nat
deriving DecidableEq

structure StoreState where
  docs : List DocRow
  terms : List TermRow
  postings : List PostingRow
  frontier : List FrontierItem
deriving DecidableEq

/-- Embedding of `UpdateFIStatus`:
`UPDATE frontier SET status = $1 WHERE url_norm = $2`. -/
def UpdateFIStatus (frontier : List FrontierItem) (urlNorm : String)
    (status : FrontierStatusEnum) : List FrontierItem :=
  frontier.map (fun r => if r.urlNorm = urlNorm then { r with status := status } else r)

def depthLe (a b : FrontierItem) : Prop := a.depth ≤ b.depth

instance : DecidableRel depthLe := fun a b => Nat.decLe a.depth b.depth

/-- Embedding of `GetFIByStatusDepthSorted`:
`SELECT * FROM frontier WHERE status = $1 ORDER BY depth ASC LIMIT $2`. -/
def GetFIByStatusDepthSorted (frontier : List FrontierItem)
    (status : FrontierStatusEnum) (limit : Nat) : List FrontierItem :=
  (List.insertionSort depthLe (frontier.filter (fun r => r.status = status))).take limit

/-! ## The frontier queue (queue/sql.go) -/

structure QueueState where
  buffer : List FrontierItem
  frontier : List FrontierItem
deriving DecidableEq

/-- Embedding of `refill`: load unvisited items depth-sorted into the
buffer; an empty result is the frontier-empty error. -/
def refill (bufSize : Nat) (st : QueueState) : Except String QueueState :=
  let items := GetFIByStatusDepthSorted st.frontier .StatusUnvisited bufSize
  if items.isEmpty then .error "frontier queue is empty"
  else .ok { st with buffer := st.buffer ++ items }

/-- Embedding of the documented `Dequeue` (queue/sql.go, first version,
lines 58–76): refill when the buffer is empty, acquire a connection — the
comment says "so we can mark the item as in-progress before returning it" —
then pop the buffer and return the item.  No status update is ever issued,
so the frontier table is returned unchanged. -/
def Dequeue (bufSize : Nat) (st : QueueState) :
    Except String (FrontierItem × QueueState) :=
  match (if st.buffer.isEmpty then refill bufSize st else .ok st) with
  | .error e => .error e
  | .ok st1 =>
    match st1.buffer with
    | [] => .error "index out of range"
    | item :: rest => .ok (item, { st1 with buffer := rest })

/-- Embedding of the alternate `Dequeue` (queue/sql.go, second version,
lines 215–233): flip the item's status to in-progress through
`UpdateFIStatus`, but pop the buffer and return the item together with the
flip's error value even when the flip fails; `flipFails` is the oracle for
that database call failing, in which case the table is not updated. -/
def DequeueFlip (flipFails : Bool) (bufSize : Nat) (st : QueueState) :
    Except String (FrontierItem × Option String × QueueState) :=
  match (if st.buffer.isEmpty then refill bufSize st else .ok st) with
  | .error e => .error e
  | .ok st1 =>
    match st1.buffer with
    | [] => .error "index out of range"
    | item0 :: rest =>
      let item := { item0 with status := .StatusInProgress }
      if flipFails then
        .ok (item, some "update failed", { st1 with buffer := rest })
      else
        .ok (item, none,
          { buffer := rest,
            frontier := UpdateFIStatus st1.frontier item.urlNorm .StatusInProgress })

/-! ## Ranker phase 1 (rank.go) -/

def postingsCount (postings : List PostingRow) (termId : Nat) : Nat :=
  (postings.filter (fun p => p.termId = termId)).length

/-- Embedding of `updateDocumentFrequencyStmt`: `UPDATE terms SET df = x.df
FROM (SELECT term_id, COUNT(*) FROM postings GROUP BY term_id) x WHERE
t.id = x.term_id` — only terms appearing in at least one posting belong to
a group, so only those rows are updated. -/
def updateDocumentFrequencyStmt (st : StoreState) : StoreState :=
  { st with terms := st.terms.map (fun t =>
      if postingsCount st.postings t.id ≠ 0 then
        { t with df := some (postingsCount st.postings t.id) }
      else t) }

/-- Embedding of `setZeroDfForTermsWithNoPostingsStmt`:
`UPDATE terms SET df = 0 WHERE df IS NULL`. -/
def setZeroDfForTermsWithNoPostingsStmt (st : StoreState) : StoreState :=
  { st with terms := st.terms.map (fun t =>
      if t.df = none then { t with df := some 0 } else t) }

/-- Embedding of `UpdateDocumentFrequency`, phase 1 of the Ranker. -/
def UpdateDocumentFrequency (st : StoreState) : StoreState :=
  setZeroDfForTermsWithNoPostingsStmt (updateDocumentFrequencyStmt st)

/-! ## Document indexing (index.go, domain/hash version; part_011) -/

/-- Embedding of `hasDomainHashConflict`:
`SELECT id FROM docs WHERE domain = $1 AND hash = $2`, read as existence. -/
def hasDomainHashConflict (docs : List DocRow) (domain hash : String) : Bool :=
  docs.any (fun d => d.domain = domain && d.hash = hash)

/-- Embedding of `insertDocStmt`: upsert on `url`, updating only `len` on a
url conflict and returning the row id; a fresh row takes the next identity
value.  Returns (returned id, docs, next identity). -/
def insertDocStmt (docs : List DocRow) (nextId : Nat) (url domain hash : String)
    (len : Nat) : Nat × List DocRow × Nat :=
  match docs.find? (fun d => d.url = url) with
  | some d =>
    (d.id, docs.map (fun r => if r.url = url then { r with len := len } else r), nextId)
  | none => (nextId, docs ++ [⟨nextId, url, domain, hash, len⟩], nextId + 1)

/-- Embedding of `insertDocumentInfo`: reject when a doc with the same
(domain, hash) already exists, otherwise run the url upsert. -/
def insertDocumentInfo (st : StoreState) (nextId : Nat) (url domain hash : String)
    (len : Nat) : Except String (Nat × StoreState × Nat) :=
  if hasDomainHashConflict st.docs domain hash then
    .error "document with same hash already exists for this domain"
  else
    .ok ((insertDocStmt st.docs nextId url domain hash len).1,
      { st with docs := (insertDocStmt st.docs nextId url domain hash len).2.1 },
      (insertDocStmt st.docs nextId url domain hash len).2.2)

/-- Embedding of `insertTerms` over `INSERT INTO terms (raw) ...
ON CONFLICT (raw) DO UPDATE ... RETURNING id, raw`: an existing raw keeps
its row, a new raw is inserted with `df` NULL; the returned pairs map each
term id to this document's frequency for it. -/
def insertTermsAux : List TermRow → Nat → List (String × Nat) →
    List TermRow × Nat × List (Nat × Nat)
  | terms, nextId, [] => (terms, nextId, [])
  | terms, nextId, (raw, tf) :: rest =>
    match terms.find? (fun t => t.raw = raw) with
    | some t =>
      match insertTermsAux terms nextId rest with
      | (terms2, nid2, acc) => (terms2, nid2, (t.id, tf) :: acc)
    | none =>
      match insertTermsAux (terms ++ [⟨nextId, raw, none⟩]) (nextId + 1) rest with
      | (terms2, nid2, acc) => (terms2, nid2, (nextId, tf) :: acc)

def insertTerms (st : StoreState) (nextTermId : Nat) (freqs : List (String × Nat)) :
    StoreState × Nat × List (Nat × Nat) :=
  match insertTermsAux st.terms nextTermId freqs with
  | (terms2, nid2, pairs) => ({ st with terms := terms2 }, nid2, pairs)

/-- Embedding of one row of `insertPostingsBatchStmt`: upsert on
(term_id, doc_id), updating `tf_raw` on conflict. -/
def upsertPosting (postings : List PostingRow) (termId docId tf : Nat) :
    List PostingRow :=
  if postings.any (fun p => p.termId = termId && p.docId = docId) then
    postings.map (fun p =>
      if p.termId = termId && p.docId = docId then { p with tfRaw := tf } else p)
  else postings ++ [⟨termId, docId, tf⟩]

/-- Embedding of `insertPostings`: the batch statement applied pair by
pair. -/
def insertPostings : StoreState → Nat → List (Nat × Nat) → StoreState
  | st, _, [] => st
  | st, docId, (tid, tf) :: rest =>
    insertPostings { st with postings := upsertPosting st.postings tid docId tf }
      docId rest

structure IndexEntry where
  url : String
  urlNorm : String
  domain : String
  hash : String
  len : Nat
  termFreqs : List (String × Nat)
deriving DecidableEq

/-- Oracle for the transaction's database calls failing for external
reasons (connection loss and the like); the duplicate-content rejection of
`insertDocumentInfo` is intrinsic and not part of the oracle. -/
structure FailOracle where
  failBegin : Bool
  failInsertDoc : Bool
  failInsertTerms : Bool
  failInsertPostings : Bool
  failUpdateStatus : Bool
  failCommit : Bool
  failHandleError : Bool
deriving DecidableEq

/-- Embedding of `IndexDocumentInit` inside the open transaction: doc
upsert (with the dedup check), term upserts, postings batch — any failure
aborts with the wrapped error. -/
def IndexDocumentInit (o : FailOracle) (st : StoreState) (nextDocId nextTermId : Nat)
    (entry : IndexEntry) : Except String (StoreState × Nat × Nat) :=
  if o.failInsertDoc then .error "failed to insert document info"
  else
    match insertDocumentInfo st nextDocId entry.url entry.domain entry.hash entry.len with
    | .error e => .error ("failed to insert document info " ++ e)
    | .ok (docId, st1, nid1) =>
      if o.failInsertTerms then .error "failed to insert terms"
      else
        match insertTerms st1 nextTermId entry.termFreqs with
        | (st2, ntid2, pairs) =>
          if o.failInsertPostings then .error "failed to insert postings"
          else .ok (insertPostings st2 docId pairs, nid1, ntid2)

/-- Embedding of `Index.handleError`: mark the frontier item failed on a
fresh connection; if acquiring that connection or the update fails the
tables stay as they are. -/
def handleError (o : FailOracle) (st : StoreState) (entry : IndexEntry) : StoreState :=
  if o.failHandleError then st
  else { st with frontier := UpdateFIStatus st.frontier entry.urlNorm .StatusFailed }

/-- Embedding of one `firstPassage` message: `Begin`, `IndexDocumentInit`,
`UpdateFIStatus(..., Completed)`, `Commit` on the transaction's working
copy; any failure before commit discards the copy (rollback) and runs
`handleError` against the original state. -/
def firstPassage (o : FailOracle) (st : StoreState) (nextDocId nextTermId : Nat)
    (entry : IndexEntry) : StoreState :=
  if o.failBegin then handleError o st entry
  else
    match IndexDocumentInit o st nextDocId nextTermId entry with
    | .error _ => handleError o st entry
    | .ok (st1, _, _) =>
      if o.failUpdateStatus then handleError o st entry
      else
        if o.failCommit then handleError o st entry
        else { st1 with frontier := UpdateFIStatus st1.frontier entry.urlNorm .StatusCompleted }

/-! ## BM25 search membership (search.go, server.go) -/

def distinctList (l : List String) : List String :=
  l.foldl (fun acc x => if acc.contains x then acc else acc ++ [x]) []

/-- One distinct query term matches a doc when some terms row carries that
raw with a non-NULL `df` and a posting joins it to the doc — the
`JOIN terms ... JOIN postings ... WHERE ... t.df IS NOT NULL` chain of
`searchBM25Stmt`. -/
def termMatches (st : StoreState) (d : DocRow) (raw : String) : Bool :=
  st.terms.any (fun t => t.raw = raw && !(t.df = none)
    && st.postings.any (fun p => p.termId = t.id && p.docId = d.id))

def matchCount (st : StoreState) (d : DocRow) (qraws : List String) : Nat :=
  (qraws.filter (termMatches st d)).length

/-- Embedding of `SearchBM25`'s result membership: `d.len > 0` and
`HAVING COUNT(DISTINCT t.raw) >= $2`, where the Go call passes
`min(len(terms), 2)` — the length of the *non-deduplicated* term list —
as `$2`, while the statement itself de-dupes `$1` into `q`. -/
def SearchBM25Matches (st : StoreState) (terms : List String) (d : DocRow) : Bool :=
  decide (0 < d.len)
    && decide (min terms.length 2 ≤ matchCount st d (distinctList terms))

/-- Modelled from the spec: the membership the specification describes,
with the threshold `min(|distinct_query_terms|, 2)` computed on the
deduplicated query term list. -/
def specSearchMatches (st : StoreState) (terms : List String) (d : DocRow) : Bool :=
  decide (0 < d.len)
    && decide (min (distinctList terms).length 2 ≤ matchCount st d (distinctList terms))


/-! ## Claims C3 and C4 -/

/-- C3: the documented `Dequeue` surfaces an item while the frontier table
still shows it `Unvisited` — the persisted flip to `InProgress` never
happens; and the alternate `Dequeue` pops the buffer and hands the item
back even when the status update fails, so on error the buffer state has
changed.  Both behaviours contradict the claimed flip-before-surface /
flip-and-pop-together contract. -/
theorem c3_dequeue_breaks_flip_contract :
    Dequeue 500 ⟨[], [⟨"http://a", "a", "", 0, .StatusUnvisited⟩]⟩
      = .ok (⟨"http://a", "a", "", 0, .StatusUnvisited⟩,
          ⟨[], [⟨"http://a", "a", "", 0, .StatusUnvisited⟩]⟩)
    ∧ DequeueFlip true 500 ⟨[⟨"http://a", "a", "", 0, .StatusUnvisited⟩],
        [⟨"http://a", "a", "", 0, .StatusUnvisited⟩]⟩
      = .ok (⟨"http://a", "a", "", 0, .StatusInProgress⟩, some "update failed",
          ⟨[], [⟨"http://a", "a", "", 0, .StatusUnvisited⟩]⟩)
    ∧ FrontierStatusEnum.StatusUnvisited ≠ FrontierStatusEnum.StatusInProgress := by
  refine ⟨rfl, rfl, by decide⟩

/-- C4: after phase 1 of the Ranker, a term whose postings were all removed
keeps its stale nonzero `df`: the grouped update touches only terms with at
least one posting, and the zero-reset applies only `WHERE df IS NULL`, so a
stale `df = 5` with no postings survives as 5, not 0.  A NULL-`df` term is
correctly reset to 0. -/
theorem c4_stale_df_survives_phase1 :
    (UpdateDocumentFrequency ⟨[], [⟨1, "stale", some 5⟩], [], []⟩).terms
      = [⟨1, "stale", some 5⟩]
    ∧ postingsCount ([] : List PostingRow) 1 = 0
    ∧ (UpdateDocumentFrequency ⟨[], [⟨2, "fresh", none⟩], [], []⟩).terms
      = [⟨2, "fresh", some 0⟩]
    ∧ (some 5 : Option Nat) ≠ some 0 := by
  refine ⟨rfl, rfl, rfl, by decide⟩


/-! ## Claim C2: (domain, hash) dedup and uniqueness -/

def domainHashDistinct (a b : DocRow) : Prop :=
  ¬(a.domain = b.domain ∧ a.hash = b.hash)

/-- The `UNIQUE(domain, hash)` invariant of the docs table, as pairwise
distinctness of the (domain, hash) pairs. -/
def docsDomainHashUnique (docs : List DocRow) : Prop :=
  List.Pairwise domainHashDistinct docs

instance : DecidableRel domainHashDistinct := fun a b =>
  instDecidableNot

theorem insertDocStmt_preserves_unique {docs : List DocRow} {nextId : Nat}
    {url domain hash : String} {len : Nat}
    (hu : docsDomainHashUnique docs)
    (hc : hasDomainHashConflict docs domain hash = false) :
    docsDomainHashUnique (insertDocStmt docs nextId url domain hash len).2.1 := by
  unfold insertDocStmt
  cases hf : docs.find? (fun d => d.url = url) with
  | some d =>
    show docsDomainHashUnique
      (docs.map (fun r => if r.url = url then { r with len := len } else r))
    have hfields : ∀ r : DocRow,
        ((if r.url = url then { r with len := len } else r) : DocRow).domain = r.domain
        ∧ ((if r.url = url then { r with len := len } else r) : DocRow).hash = r.hash := by
      intro r
      by_cases h : r.url = url
      · rw [if_pos h]
        exact ⟨rfl, rfl⟩
      · rw [if_neg h]
        exact ⟨rfl, rfl⟩
    unfold docsDomainHashUnique at hu ⊢
    rw [List.pairwise_map]
    refine List.Pairwise.imp ?_ hu
    intro a b hab hcon
    exact hab ⟨((hfields a).1).symm.trans (hcon.1.trans (hfields b).1),
      ((hfields a).2).symm.trans (hcon.2.trans (hfields b).2)⟩
  | none =>
    show docsDomainHashUnique (docs ++ [⟨nextId, url, domain, hash, len⟩])
    unfold docsDomainHashUnique at hu ⊢
    refine List.pairwise_append.mpr ⟨hu, List.pairwise_singleton _ _, ?_⟩
    intro a ha b hb
    have hb2 : b = ⟨nextId, url, domain, hash, len⟩ := by simpa using hb
    subst hb2
    intro hcon
    unfold hasDomainHashConflict at hc
    rw [List.any_eq_false] at hc
    exact hc a ha (by simp [hcon.1, hcon.2])

/-- C2: an index attempt whose (domain, hash) pair already identifies a docs
row is rejected with the duplicate-content error (no row is inserted since
no state is produced), and every successful `insertDocumentInfo` preserves
the pairwise uniqueness of (domain, hash) across docs. -/
theorem c2_domain_hash_dedup_and_unique (st : StoreState) (nextId : Nat)
    (url domain hash : String) (len : Nat)
    (hu : docsDomainHashUnique st.docs) :
    (hasDomainHashConflict st.docs domain hash = true →
      insertDocumentInfo st nextId url domain hash len
        = .error "document with same hash already exists for this domain")
    ∧ (∀ docId st2 nid2,
        insertDocumentInfo st nextId url domain hash len = .ok (docId, st2, nid2) →
        docsDomainHashUnique st2.docs) := by
  constructor
  · intro h
    unfold insertDocumentInfo
    rw [h]
    rfl
  · intro docId st2 nid2 hok
    unfold insertDocumentInfo at hok
    cases hc : hasDomainHashConflict st.docs domain hash with
    | true =>
      rw [hc] at hok
      exact Except.noConfusion hok
    | false =>
      rw [hc] at hok
      have hok2 : (Except.ok ((insertDocStmt st.docs nextId url domain hash len).1,
          { st with docs := (insertDocStmt st.docs nextId url domain hash len).2.1 },
          (insertDocStmt st.docs nextId url domain hash len).2.2)
            : Except String (Nat × StoreState × Nat)) = .ok (docId, st2, nid2) := hok
      simp only [Except.ok.injEq, Prod.mk.injEq] at hok2
      have hst2 : st2 = { st with
          docs := (insertDocStmt st.docs nextId url domain hash len).2.1 } :=
        hok2.2.1.symm
      rw [hst2]
      exact insertDocStmt_preserves_unique hu hc

theorem c2_domain_hash_dedup_and_unique_witness :
    insertDocumentInfo ⟨[⟨1, "http://a", "example.com", "h1", 5⟩], [], [], []⟩
        2 "http://b" "example.com" "h1" 3
      = .error "document with same hash already exists for this domain" :=
  (c2_domain_hash_dedup_and_unique
    ⟨[⟨1, "http://a", "example.com", "h1", 5⟩], [], [], []⟩
    2 "http://b" "example.com" "h1" 3 (List.pairwise_singleton _ _)).1 (by decide)


/-! ## Claim C1: the indexing transaction -/

theorem handleError_spec (o : FailOracle) (st : StoreState) (entry : IndexEntry)
    (hhe : o.failHandleError = false) :
    handleError o st entry
      = { st with frontier := UpdateFIStatus st.frontier entry.urlNorm .StatusFailed } := by
  unfold handleError
  rw [hhe]
  rfl

/-- C1: one `firstPassage` message is transactional.  Either every database
step succeeds — no oracle failure and no duplicate-content rejection — and
the final state is the committed working copy of `IndexDocumentInit` with
the frontier row flipped to Completed in the same state, or some step fails
before commit and the docs, terms and postings tables are exactly the
initial ones while the frontier item is marked Failed on the fresh
connection (assumed to work). -/
theorem c1_first_passage_transactional (o : FailOracle) (st : StoreState)
    (nextDocId nextTermId : Nat) (entry : IndexEntry)
    (hhe : o.failHandleError = false) :
    (∃ st1 nid ntid,
      IndexDocumentInit o st nextDocId nextTermId entry = .ok (st1, nid, ntid)
      ∧ o.failBegin = false ∧ o.failUpdateStatus = false ∧ o.failCommit = false
      ∧ firstPassage o st nextDocId nextTermId entry
          = { st1 with
              frontier := UpdateFIStatus st1.frontier entry.urlNorm .StatusCompleted })
    ∨ ((firstPassage o st nextDocId nextTermId entry).docs = st.docs
      ∧ (firstPassage o st nextDocId nextTermId entry).terms = st.terms
      ∧ (firstPassage o st nextDocId nextTermId entry).postings = st.postings
      ∧ (firstPassage o st nextDocId nextTermId entry).frontier
          = UpdateFIStatus st.frontier entry.urlNorm .StatusFailed) := by
  cases hb : o.failBegin with
  | true =>
    right
    have hfp : firstPassage o st nextDocId nextTermId entry = handleError o st entry := by
      unfold firstPassage
      rw [hb]
      rfl
    rw [hfp, handleError_spec o st entry hhe]
    exact ⟨rfl, rfl, rfl, rfl⟩
  | false =>
    cases hidx : IndexDocumentInit o st nextDocId nextTermId entry with
    | error e =>
      right
      have hfp : firstPassage o st nextDocId nextTermId entry
          = handleError o st entry := by
        unfold firstPassage
        rw [hb, hidx]
        rfl
      rw [hfp, handleError_spec o st entry hhe]
      exact ⟨rfl, rfl, rfl, rfl⟩
    | ok trip =>
      obtain ⟨st1, nid, ntid⟩ := trip
      cases hu2 : o.failUpdateStatus with
      | true =>
        right
        have hfp : firstPassage o st nextDocId nextTermId entry
            = handleError o st entry := by
          unfold firstPassage
          rw [hb, hidx, hu2]
          rfl
        rw [hfp, handleError_spec o st entry hhe]
        exact ⟨rfl, rfl, rfl, rfl⟩
      | false =>
        cases hcm : o.failCommit with
        | true =>
          right
          have hfp : firstPassage o st nextDocId nextTermId entry
              = handleError o st entry := by
            unfold firstPassage
            rw [hb, hidx, hu2, hcm]
            rfl
          rw [hfp, handleError_spec o st entry hhe]
          exact ⟨rfl, rfl, rfl, rfl⟩
        | false =>
          left
          refine ⟨st1, nid, ntid, rfl, rfl, rfl, rfl, ?_⟩
          unfold firstPassage
          rw [hb, hidx, hu2, hcm]
          rfl

theorem c1_first_passage_transactional_witness :
    (∃ st1 nid ntid,
      IndexDocumentInit ⟨false, false, false, false, false, false, false⟩
          ⟨[], [], [], [⟨"http://a", "a", "", 0, .StatusUnvisited⟩]⟩ 1 1
          ⟨"http://a", "a", "example.com", "h", 1, [("hello", 1)]⟩
        = .ok (st1, nid, ntid)
      ∧ (false : Bool) = false ∧ (false : Bool) = false ∧ (false : Bool) = false
      ∧ firstPassage ⟨false, false, false, false, false, false, false⟩
          ⟨[], [], [], [⟨"http://a", "a", "", 0, .StatusUnvisited⟩]⟩ 1 1
          ⟨"http://a", "a", "example.com", "h", 1, [("hello", 1)]⟩
          = { st1 with frontier := UpdateFIStatus st1.frontier "a" .StatusCompleted })
    ∨ ((firstPassage ⟨false, false, false, false, false, false, false⟩
          ⟨[], [], [], [⟨"http://a", "a", "", 0, .StatusUnvisited⟩]⟩ 1 1
          ⟨"http://a", "a", "example.com", "h", 1, [("hello", 1)]⟩).docs = []
      ∧ (firstPassage ⟨false, false, false, false, false, false, false⟩
          ⟨[], [], [], [⟨"http://a", "a", "", 0, .StatusUnvisited⟩]⟩ 1 1
          ⟨"http://a", "a", "example.com", "h", 1, [("hello", 1)]⟩).terms = []
      ∧ (firstPassage ⟨false, false, false, false, false, false, false⟩
          ⟨[], [], [], [⟨"http://a", "a", "", 0, .StatusUnvisited⟩]⟩ 1 1
          ⟨"http://a", "a", "example.com", "h", 1, [("hello", 1)]⟩).postings = []
      ∧ (firstPassage ⟨false, false, false, false, false, false, false⟩
          ⟨[], [], [], [⟨"http://a", "a", "", 0, .StatusUnvisited⟩]⟩ 1 1
          ⟨"http://a", "a", "example.com", "h", 1, [("hello", 1)]⟩).frontier
          = UpdateFIStatus [⟨"http://a", "a", "", 0, .StatusUnvisited⟩] "a"
              .StatusFailed) :=
  c1_first_passage_transactional ⟨false, false, false, false, false, false, false⟩
    ⟨[], [], [], [⟨"http://a", "a", "", 0, .StatusUnvisited⟩]⟩ 1 1
    ⟨"http://a", "a", "example.com", "h", 1, [("hello", 1)]⟩ rfl


/-! ## Claim C5: the BM25 match threshold -/

theorem distinctList_aux_length : ∀ (l acc : List String),
    (l.foldl (fun acc x => if acc.contains x then acc else acc ++ [x]) acc).length
      ≤ acc.length + l.length := by
  intro l
  induction l with
  | nil =>
    intro acc
    simp
  | cons x xs ih =>
    intro acc
    rw [List.foldl_cons]
    by_cases h : acc.contains x = true
    · rw [if_pos h]
      have h2 := ih acc
      rw [List.length_cons]
      omega
    · rw [if_neg h]
      have h2 := ih (acc ++ [x])
      rw [List.length_append, List.length_singleton] at h2
      rw [List.length_cons]
      omega

theorem distinctList_length_le (l : List String) :
    (distinctList l).length ≤ l.length := by
  have h := distinctList_aux_length l []
  have h2 : ([] : List String).length + l.length = l.length := by simp
  rw [h2] at h
  unfold distinctList
  exact h

theorem distinctList_aux_nodup_eq : ∀ (l acc : List String),
    (∀ x ∈ l, ¬(x ∈ acc)) → l.Nodup →
    l.foldl (fun acc x => if acc.contains x then acc else acc ++ [x]) acc
      = acc ++ l := by
  intro l
  induction l with
  | nil =>
    intro acc _ _
    simp
  | cons x xs ih =>
    intro acc hnotin hnd
    rw [List.nodup_cons] at hnd
    rw [List.foldl_cons]
    have hcf : acc.contains x = false := by
      cases hcc : acc.contains x with
      | false => rfl
      | true =>
        exact absurd (List.mem_of_elem_eq_true hcc)
          (hnotin x (List.mem_cons_self x xs))
    have hne : ¬(acc.contains x = true) := by
      rw [hcf]
      exact Bool.false_ne_true
    rw [if_neg hne]
    have hstep := ih (acc ++ [x]) ?_ hnd.2
    · rw [hstep, List.append_assoc]
      rfl
    · intro y hy hmem
      cases List.mem_append.mp hmem with
      | inl h1 => exact hnotin y (List.mem_cons_of_mem x hy) h1
      | inr h2 =>
        have hyx : y = x := by simpa using h2
        subst hyx
        exact hnd.1 hy

theorem distinctList_of_nodup {l : List String} (h : l.Nodup) :
    distinctList l = l := by
  have h2 := distinctList_aux_nodup_eq l [] (by simp) h
  unfold distinctList
  rw [h2]
  rfl

theorem distinctList_pair (w : String) : distinctList [w, w] = [w] := by
  unfold distinctList
  rw [List.foldl_cons, List.foldl_cons, List.foldl_nil]
  simp

/-- C5 (amended): the Go `SearchBM25` call passes `min(len(terms), 2)` with
`terms` the raw, non-deduplicated token list.  On an already-deduplicated
query the behaviour agrees with the spec's membership; a matching document
under the Go threshold always matches under the spec threshold; but a query
tokenizing to one term repeated twice can match no document at all, because
two distinct matching raws are demanded while only one distinct query term
exists. -/
theorem c5_threshold_counts_undeduped_terms (st : StoreState)
    (terms : List String) (d : DocRow) :
    (terms.Nodup → SearchBM25Matches st terms d = specSearchMatches st terms d)
    ∧ (SearchBM25Matches st terms d = true → specSearchMatches st terms d = true)
    ∧ (∀ w, terms = [w, w] → SearchBM25Matches st terms d = false) := by
  refine ⟨?_, ?_, ?_⟩
  · intro h
    unfold SearchBM25Matches specSearchMatches
    rw [distinctList_of_nodup h]
  · intro h
    unfold SearchBM25Matches at h
    unfold specSearchMatches
    rw [Bool.and_eq_true] at h
    obtain ⟨h1, h2⟩ := h
    rw [h1, Bool.true_and]
    exact decide_eq_true (le_trans
      (min_le_min (distinctList_length_le terms) (le_refl 2))
      (of_decide_eq_true h2))
  · intro w hw
    subst hw
    unfold SearchBM25Matches
    have hmc : matchCount st d (distinctList [w, w]) ≤ 1 := by
      rw [distinctList_pair]
      exact List.length_filter_le _ _
    have hd2 : decide (min (List.length ([w, w] : List String)) 2
        ≤ matchCount st d (distinctList [w, w])) = false :=
      decide_eq_false (by
        intro hle
        have hmin : min (List.length ([w, w] : List String)) 2 = 2 := rfl
        rw [hmin] at hle
        omega)
    rw [hd2, Bool.and_false]

/-- C5: the query is not deduplicated before the threshold is computed.  The
tokenizer emits repeats ("hello hello" scans to two tokens), and with one
matching term in the store the repeated-term query matches nothing — the
threshold is min(2, 2) = 2 while only one distinct term can match — though
the same query under the spec's min(|distinct|, 2) = 1 threshold matches,
as the deduplicated single-term query does. -/
theorem c5_repeated_term_counterexample :
    scanWordsFromString "" "hello hello" = ["hello", "hello"]
    ∧ SearchBM25Matches
        ⟨[⟨1, "http://a", "a", "h", 3⟩], [⟨1, "hello", some 1⟩], [⟨1, 1, 2⟩], []⟩
        ["hello", "hello"] ⟨1, "http://a", "a", "h", 3⟩ = false
    ∧ SearchBM25Matches
        ⟨[⟨1, "http://a", "a", "h", 3⟩], [⟨1, "hello", some 1⟩], [⟨1, 1, 2⟩], []⟩
        ["hello"] ⟨1, "http://a", "a", "h", 3⟩ = true
    ∧ specSearchMatches
        ⟨[⟨1, "http://a", "a", "h", 3⟩], [⟨1, "hello", some 1⟩], [⟨1, 1, 2⟩], []⟩
        ["hello", "hello"] ⟨1, "http://a", "a", "h", 3⟩ = true := by
  refine ⟨by decide, by decide, by decide, by decide⟩

theorem c5_threshold_counts_undeduped_terms_witness :
    SearchBM25Matches
        ⟨[⟨1, "http://a", "a", "h", 3⟩], [⟨1, "hello", some 1⟩], [⟨1, 1, 2⟩], []⟩
        ["hello"] ⟨1, "http://a", "a", "h", 3⟩
      = specSearchMatches
        ⟨[⟨1, "http://a", "a", "h", 3⟩], [⟨1, "hello", some 1⟩], [⟨1, 1, 2⟩], []⟩
        ["hello"] ⟨1, "http://a", "a", "h", 3⟩
    ∧ SearchBM25Matches
        ⟨[⟨1, "http://a", "a", "h", 3⟩], [⟨1, "hello", some 1⟩], [⟨1, 1, 2⟩], []⟩
        ["hello", "hello"] ⟨1, "http://a", "a", "h", 3⟩ = false :=
  ⟨(c5_threshold_counts_undeduped_terms
      ⟨[⟨1, "http://a", "a", "h", 3⟩], [⟨1, "hello", some 1⟩], [⟨1, 1, 2⟩], []⟩
      ["hello"] ⟨1, "http://a", "a", "h", 3⟩).1 (by decide),
   (c5_threshold_counts_undeduped_terms
      ⟨[⟨1, "http://a", "a", "h", 3⟩], [⟨1, "hello", some 1⟩], [⟨1, 1, 2⟩], []⟩
      ["hello", "hello"] ⟨1, "http://a", "a", "h", 3⟩).2.2 "hello" rfl⟩

end GoSearch
